import Mathlib

/-!
Verification development for the YouTubeShortsBot repository.

The Python sources are shallowly embedded as Lean definitions:

* `src/story_generator.py` — `StoryGenerator.get_story_from_gemini` and its
  fallback list (`config/constants.py` `FALLBACK_STORIES`).
* `src/video_creator.py` — the asset selectors, the caption segmenter
  (`_split_text_into_segments`, on top of a faithful model of CPython's
  `textwrap.fill`), the timing estimator (`_estimate_audio_timings`) and the
  caption-window placement of `_create_long_video_with_sync`.
* `src/ffmpeg_video_creator.py` — `FFMPEGVideoCreator.validate_files` and
  `create_video` (the command construction and its duration logic).
* `src/main.py` — the `generate_and_upload_short` orchestration
  (render/upload/cleanup control flow and its effect on the disk).

External effects (the Gemini HTTP call, `json.loads`, `ffprobe`, the ffmpeg
process, the YouTube upload, `random.choice`, `os.listdir`) are modelled as
explicit inputs to the embedded functions; Python exceptions raised by those
externals are modelled by `Option`/`Except` values.  Real-number quantities
(audio durations) are modelled with `ℚ`; Python's float arithmetic in the
timing estimator is thereby treated exactly, which is the reading the spec
itself takes ("within floating-point tolerance" / "exactly, by
normalization").
-/

namespace YTBot

/-! ## Story generator (`src/story_generator.py`) -/

/-- Python JSON values, the possible results of `json.loads`. -/
inductive PyJson where
  | null : PyJson
  | bool : Bool → PyJson
  | num : ℚ → PyJson
  | str : String → PyJson
  | arr : List PyJson → PyJson
  | obj : List (String × PyJson) → PyJson

/-- Embedding of `config/constants.py` `FALLBACK_STORIES`: the fixed local
list of pre-written stories (23 entries, transcribed verbatim). -/
def FALLBACK_STORIES : List PyJson := [
  PyJson.obj [("title", PyJson.str "The Reflection"), ("story", PyJson.str "The old woman insisted her mirror was evil. \"It shows things not there,\" she'd croak. Her niece, visiting after years, scoffed, polishing the ornate frame. As she admired her reflection, a gaunt, smiling face appeared over her shoulder in the glass. The niece froze. It wasn't the old woman. She turned slowly. The room behind her was empty.")],
  PyJson.obj [("title", PyJson.str "The Lullaby"), ("story", PyJson.str "A young father recorded his baby daughter's first words, whispering sweet encouragement. Later, reviewing the clip, he heard her tiny voice, clear as day, finishing the lullaby he'd been singing. But he'd stopped singing halfway through, moments before she spoke.")],
  PyJson.obj [("title", PyJson.str "The Last Light"), ("story", PyJson.str "The power died, plunging the apartment into darkness. My phone, at 1%, was my only light. I navigated to the bedroom, the beam dancing across the walls. Then, a second light flickered on from the far corner of the room, held by someone, or something, I couldn't quite see.")],
  PyJson.obj [("title", PyJson.str "The Persistent Knock"), ("story", PyJson.str "I heard it last night, three sharp knocks on my apartment door. No one was there. This morning, I found a small, hand-carved wooden bird on my doormat. It had three tiny, raised bumps on its head, perfectly matching the rhythm of the knocks.")],
  PyJson.obj [("title", PyJson.str "The Static Friend"), ("story", PyJson.str "My old radio only picks up static now. But lately, when I turn it on, I hear faint whispers within the white noise. Yesterday, amidst the crackle, I distinctly heard my name, followed by a child's giggle right beside my ear. The radio was across the room.")],
  PyJson.obj [("title", PyJson.str "The Wrong Reflection"), ("story", PyJson.str "I was practicing dance moves in front of my full-length mirror. My reflection moved perfectly in sync. Then, I stopped. My reflection didn't. It just kept dancing, eyes wide and unblinking, a slow, terrifying smile spreading across its face.")],
  PyJson.obj [("title", PyJson.str "The Last Message"), ("story", PyJson.str "My grandfather's old flip phone rang. It was his number, but he died last year. Hesitantly, I answered. All I heard was heavy breathing, then a garbled voice whisper, \"They're still here,\" before the line went dead.")],
  PyJson.obj [("title", PyJson.str "The Unseen Guest"), ("story", PyJson.str "I live alone. So when I woke up this morning to find a second, perfectly placed toothbrush in the holder next to mine, a fresh, unused bar of soap in the shower, and the distinct scent of a perfume I don't own lingering in the air, I knew I wasn't alone anymore.")],
  PyJson.obj [("title", PyJson.str "The Whispering Walls"), ("story", PyJson.str "Every night, the old house whispers my name. I dismissed it as wind, then pipes, but last night, it sounded like a dozen voices, all my own, echoing from behind the wallpaper. I pressed my ear against it, and they all screamed.")],
  PyJson.obj [("title", PyJson.str "The Glitch in the Photo"), ("story", PyJson.str "I took a selfie, smiling. Later, reviewing it, I noticed a distortion. My face was there, but my eyes were *different*, too wide, too black. And in the background, just visible, was a figure that definitely wasn't there when I took the shot.")],
  PyJson.obj [("title", PyJson.str "The Missing Step"), ("story", PyJson.str "Walking up my familiar stairs in the dark, I always count the steps. Sixteen. Last night, I counted fifteen, and my foot kept going. I caught myself just before falling into empty air where the sixteenth step should have been.")],
  PyJson.obj [("title", PyJson.str "The Child's Drawing"), ("story", PyJson.str "I found an old drawing tucked into a library book. A child's crude stick figures: a family holding hands. Below it, scrawled in shaky letters, 'Don't let the man in the hat in.' My reflection in the window showed a man in a hat standing directly behind me.")],
  PyJson.obj [("title", PyJson.str "The Wrong Call"), ("story", PyJson.str "My phone rang, displaying 'Mom.' I answered, 'Hey, Mom!' A voice replied, deep and gravelly, 'She's not here right now.' Then a click. My real mom called a second later, asking why *I* had just called *her*.")],
  PyJson.obj [("title", PyJson.str "The Shadow in the Frame"), ("story", PyJson.str "I inherited an antique mirror. It’s beautiful, ornate. But sometimes, in my peripheral vision, I catch a shadow moving *within* the glass itself, not a reflection. It’s always just a glimpse, like someone pacing behind the surface.")],
  PyJson.obj [("title", PyJson.str "The Basement Door"), ("story", PyJson.str "We moved into an old house with a locked basement door. The previous owners said they lost the key. One night, I heard a faint scratching from behind it. The next morning, the door was slightly ajar, a single, rusty key lying on the floor.")],
  PyJson.obj [("title", PyJson.str "The Static Broadcast"), ("story", PyJson.str "My car radio kept tuning to a station that was pure static. But then, a child's voice broke through, counting slowly. 'One... two... three...' It kept counting, getting clearer, until it reached 'ten,' and my engine sputtered and died.")],
  PyJson.obj [("title", PyJson.str "The Familiar Stranger"), ("story", PyJson.str "I saw her reflection in a shop window. A woman who looked *exactly* like me, same clothes, same hairstyle. We both stopped, staring. Then she smiled, but I hadn't. Her smile was too wide, too knowing.")],
  PyJson.obj [("title", PyJson.str "The Unplugged Device"), ("story", PyJson.str "I unplugged every smart device in my house after hearing strange noises at night. The next morning, my smart speaker, sitting dark and unplugged on the counter, suddenly lit up. A robotic voice said, 'Good morning. Did you sleep well?'")],
  PyJson.obj [("title", PyJson.str "The Persistent Humming"), ("story", PyJson.str "There’s a low hum coming from beneath my bed, always. I’ve checked, nothing's there. Last night, the humming pulsed, and something cold brushed my ankle from under the covers. It hummed louder, like it was happy.")],
  PyJson.obj [("title", PyJson.str "The Open Window"), ("story", PyJson.str "I always lock my windows before bed. Always. So when I woke to a chill and found the bedroom window wide open, flapping curtains, I felt a knot of dread. On the sill, a single, wet footprint pointed *inward*.")],
  PyJson.obj [("title", PyJson.str "The Mimic"), ("story", PyJson.str "My cat, Mittens, loves to play. I tossed her toy, and she pounced. But then I heard a familiar 'meow' from behind me, and turned to see Mittens still curled up, asleep on the couch. The 'cat' in front of me slowly stood on two legs.")],
  PyJson.obj [("title", PyJson.str "The Forgotten Face"), ("story", PyJson.str "I was sketching faces from memory. My best friend, my mom, my dog. Then, without thinking, I drew a face I didn't recognize. It was gaunt, with huge, black eyes. As I finished, I felt cold breath on my neck, and a whisper, 'You forgot me?'")],
  PyJson.obj [("title", PyJson.str "The Backyard Swing"), ("story", PyJson.str "The swing set in my backyard always moves a little in the wind. But this morning, every swing was twisted, ropes stretched taut, facing the house. And the smallest swing, the baby one, was slowly, deliberately rocking, back and forth, back and forth.")]]

/-- Embedding of `StoryGenerator.get_fallback_story`:
`random.choice(self.fallback_stories)`.  `random.choice` draws one element
uniformly at random; the random draw is modelled by the index `idx`
(reduced mod the list length, so every element is selected for some draw). -/
def get_fallback_story (idx : Nat) : PyJson :=
  FALLBACK_STORIES.getD (idx % FALLBACK_STORIES.length) PyJson.null

/-- Embedding of `StoryGenerator.get_story_from_gemini` (src/story_generator.py,
lines 32–66).  The external effects inside the `try:` block — the
`generate_content` HTTP call, reading `response.text`, the code-fence strip
and `json.loads` — are abstracted into one input `apiParse`:

* `apiParse = none` models any exception raised inside the `try:` block
  (network error, SDK error, `json.loads` failure on invalid/empty JSON text);
  the `except` handler then returns `get_fallback_story()`.
* `apiParse = some j` models a response whose (fence-stripped) text parses as
  the JSON value `j`; the function returns `story_data = j` unchanged, with
  no check of its shape.

`hasKey` models `self.gemini_api_key` being set; when it is not, the function
returns the fallback story without calling the API. -/
def get_story_from_gemini (hasKey : Bool) (apiParse : Option PyJson)
    (fallbackIdx : Nat) : PyJson :=
  if !hasKey then get_fallback_story fallbackIdx
  else
    match apiParse with
    | none => get_fallback_story fallbackIdx
    | some j => j

/-! ## Asset selectors (`src/video_creator.py`, lines 48–66) -/

/-- Model of Python `str.lower()` (character-wise lowercasing; the
extensions being matched are ASCII, for which `Char.toLower` agrees with
Python). -/
def pyLower (s : String) : String := String.mk (s.data.map Char.toLower)

/-- Model of Python `str.endswith(e)` for one suffix: the last `e.length`
characters equal `e`. -/
def endswith (s e : String) : Bool :=
  decide (e.data = s.data.drop (s.data.length - e.data.length))

/-- Model of Python `str.endswith(tuple)`: true when some suffix in the
tuple matches. -/
def endswithAny (s : String) (exts : List String) : Bool :=
  exts.any (fun e => endswith s e)

/-- The extension tuple of `get_random_background_video`. -/
def videoExts : List String := [".mp4", ".avi", ".mov", ".mkv"]

/-- The extension tuple of `get_random_audio_track`. -/
def audioExts : List String := [".mp3", ".wav", ".aac"]

/-- Embedding of `VideoCreator.get_random_background_video` (lines 48–56).
`listing` models `os.listdir(self.background_videos_folder)`, `folder` the
folder path, and `pick` the random draw of `random.choice` (reduced mod the
number of matches, so each matching file is returned for some draw).  The
`raise Exception(...)` on an empty filter result is the `Except.error`
branch; `os.path.join` is path concatenation with `/`. -/
def get_random_background_video (folder : String) (listing : List String)
    (pick : Nat) : Except String String :=
  let vids := listing.filter (fun f => endswithAny (pyLower f) videoExts)
  if vids.isEmpty then
    Except.error "No background videos found! Please add videos to the background_videos folder."
  else
    Except.ok (folder ++ "/" ++ vids.getD (pick % vids.length) "")

/-- Embedding of `VideoCreator.get_random_audio_track` (lines 58–66),
modelled exactly as `get_random_background_video`. -/
def get_random_audio_track (folder : String) (listing : List String)
    (pick : Nat) : Except String String :=
  let tracks := listing.filter (fun f => endswithAny (pyLower f) audioExts)
  if tracks.isEmpty then
    Except.error "No audio tracks found! Please add audio files to the audio_tracks folder."
  else
    Except.ok (folder ++ "/" ++ tracks.getD (pick % tracks.length) "")

/-! ## FFmpeg video creator (`src/ffmpeg_video_creator.py`) -/

/-- Model of `os.path.basename` for `/`-separated paths. -/
def basename (p : String) : String := ((p.splitOn "/").getLast?).getD p

/-- Model of Python `int()` applied to a float: truncation toward zero. -/
def pyInt (q : ℚ) : Int := if q < 0 then -((-q).floor) else q.floor

/-- Embedding of `FFMPEGVideoCreator.validate_files` (lines 13–23).
`fsExists` models `os.path.exists`.  The Python function iterates the dict
`{'Background Video': …, 'Voiceover': …, 'Background Music': …}` in insertion
order and raises `FileNotFoundError(f"{name} file not found: {filepath}")`
at the first missing file; the raise is the `Except.error` branch. -/
def validate_files (fsExists : String → Bool)
    (background_video voiceover background_music : String) : Except String Unit :=
  if !fsExists background_video then
    Except.error ("Background Video file not found: " ++ background_video)
  else if !fsExists voiceover then
    Except.error ("Voiceover file not found: " ++ voiceover)
  else if !fsExists background_music then
    Except.error ("Background Music file not found: " ++ background_music)
  else Except.ok ()

/-- The quality presets dict of `create_video` (lines 69–76), including the
`.get(quality, quality_presets["medium"])` default. -/
def quality_preset (quality : String) : String × String :=
  if quality = "fast" then ("ultrafast", "28")
  else if quality = "medium" then ("medium", "23")
  else if quality = "high" then ("slow", "20")
  else if quality = "best" then ("veryslow", "18")
  else ("medium", "23")

/-- The font path returned by `FFMPEGVideoCreator.get_font_path`. -/
def get_font_path : String := "/assets/fonts/Lato/Lato-Regular.ttf"

/-- The `drawtext` filter string of `create_video` (lines 78–85), with
`story_title.upper()` modelled by character-wise `Char.toUpper`. -/
def drawtext_filter (story_title : String) : String :=
  "drawtext=fontfile='" ++ get_font_path ++ "':text='" ++ story_title.map Char.toUpper ++
  "':fontcolor=white:fontsize=80:box=1:boxcolor=black@0.5:boxborderw=20:" ++
  "x=(w-text_w)/2:y=(h-text_h)/2"

/-- The `filter_complex` string of `create_video` (lines 87–94).  The volume
factor is a Python float rendered into the f-string; its textual rendering is
modelled by `toString` on `ℚ` (no claim depends on that rendering). -/
def filter_complex (story_title : String) (bg_music_volume : ℚ) : String :=
  "[0:v]scale=1920:1080:force_original_aspect_ratio=decrease," ++
  "pad=1920:1080:(ow-iw)/2:(oh-ih)/2,fps=30,setpts=PTS-STARTPTS," ++
  drawtext_filter story_title ++ "[video];" ++
  "[2:a]volume=" ++ toString bg_music_volume ++ ",aloop=loop=-1:size=2e+09[bg_music];" ++
  "[1:a]volume=1.0[voice];" ++
  "[voice][bg_music]amix=inputs=2:duration=first:dropout_transition=3[audio]"

/-- The part of the ffmpeg command list constructed by `create_video`
(lines 96–134) that precedes the `-t` flag.  `env` models
`os.environ['ENV']`, `assetsDir`/`dataDir` the mounted
`constants.ASSETS_DIR`/`constants.DATA_DIR`. -/
def ffmpeg_cmd_before_t (env assetsDir dataDir : String)
    (background_video voiceover background_music : String)
    (story_title : String) (bg_music_volume : ℚ) (quality : String) : List String :=
  ["docker", "run", "--rm"] ++
  (if env = "prod" then ["--device=/dev/dri:/dev/dri", "-hwaccel", "qsv"] else []) ++
  ["-v", assetsDir ++ ":/assets", "-v", dataDir ++ ":/data",
   "linuxserver/ffmpeg", "-y", "-stream_loop", "-1",
   "-i", "/assets/background_videos/" ++ basename background_video,
   "-i", "/data/generated_audio/" ++ basename voiceover,
   "-i", "/assets/audio_tracks/" ++ basename background_music,
   "-filter_complex", filter_complex story_title bg_music_volume,
   "-map", "[video]", "-map", "[audio]"] ++
  (if env = "prod" then ["-c:v", "h264_qsv"] else ["-c:v", "libx264"]) ++
  ["-preset", (quality_preset quality).1, "-crf", (quality_preset quality).2,
   "-profile:v", "high", "-level", "4.0",
   "-c:a", "aac", "-b:a", "192k", "-ar", "48000"]

/-- The part of the command list after the `-t` flag (lines 136–138). -/
def ffmpeg_cmd_after_t (output_file : String) : List String :=
  ["-movflags", "+faststart",
   "/data/generated_long_videos/" ++ basename output_file]

/-- The full ffmpeg command list constructed by `create_video`
(lines 96–138), with `durationUsed` the value the function computed for the
`-t` flag. -/
def ffmpeg_cmd (env assetsDir dataDir : String)
    (background_video voiceover background_music output_file : String)
    (story_title : String) (bg_music_volume : ℚ) (quality : String)
    (durationUsed : Int) : List String :=
  ffmpeg_cmd_before_t env assetsDir dataDir background_video voiceover
    background_music story_title bg_music_volume quality ++
  ["-t", toString durationUsed] ++ ffmpeg_cmd_after_t output_file

/-- The duration `create_video` actually uses for the `-t` flag
(lines 59–66): `int(voice_duration) + 5` when `get_media_info` succeeded on
the voiceover, the fallback `305` otherwise.  `voice_info` models the probe
result (the parsed `float(voice_info['format']['duration'])`, or `none` when
`get_media_info` returned `None`). -/
def duration_used (voice_info : Option ℚ) : Int :=
  match voice_info with
  | some voice_duration => pyInt voice_duration + 5
  | none => 305

/-- Embedding of `FFMPEGVideoCreator.create_video` (lines 47–180) up to the
point where the ffmpeg process is launched.  The returned value is either the
validation error (`validate_files` raised before any other work, in
particular before `subprocess.Popen` runs the render tool) or the fully
constructed command list handed to `subprocess.Popen`.  The caller-supplied
`duration` argument is dead: the Python function unconditionally reassigns
`duration` from the probe result before using it.  The process outcome
(lines 147–180) is not part of this value; reaching `Except.ok` is exactly
"the render tool is invoked with this command". -/
def create_video (fsExists : String → Bool) (voice_info : Option ℚ)
    (env assetsDir dataDir : String)
    (background_video voiceover background_music output_file : String)
    (duration : Option ℚ) (bg_music_volume : ℚ) (quality : String)
    (story_title : String) : Except String (List String) :=
  match validate_files fsExists background_video voiceover background_music with
  | Except.error e => Except.error e
  | Except.ok _ =>
    Except.ok (ffmpeg_cmd env assetsDir dataDir background_video voiceover
      background_music output_file story_title bg_music_volume quality
      (duration_used voice_info))

/-! ## Main orchestration (`src/main.py`) -/

/-- Embedding of `YouTubeShortsBot.create_video_short` (lines 91–170) at the
level of its effects: `write_videofile` — the one render invocation — runs
exactly once, and on success the output file exists on disk.  `renderOutcome`
models the moviepy render: `some p` for success writing file `p`, `none` for
an exception (caught; the function returns `None`).  The result triple is
(disk contents, returned value, number of render invocations). -/
def create_video_short (disk : List String) (renderOutcome : Option String) :
    List String × Option String × Nat :=
  match renderOutcome with
  | some p => (p :: disk, some p, 1)
  | none => (disk, none, 1)

/-- Embedding of `YouTubeShortsBot.generate_short` (lines 285–321): the two
asset-folder checks (returning `False`, modelled as `none`, without rendering
when either filtered listing is empty), then `create_video_short`. -/
def generate_short (bgListing audListing : List String) (disk : List String)
    (renderOutcome : Option String) : List String × Option String × Nat :=
  if (bgListing.filter (fun f => endswithAny (pyLower f) videoExts)).isEmpty then
    (disk, none, 0)
  else if (audListing.filter (fun f => endswithAny (pyLower f) audioExts)).isEmpty then
    (disk, none, 0)
  else create_video_short disk renderOutcome

/-- Embedding of `YouTubeShortsBot.upload_to_youtube` (lines 236–277) at the
level of its outcome.  Called with `video_path = None/False` (a failed
generation), `MediaFileUpload` raises and the catch-all handler returns
`False`; otherwise `uploadOk` models the success of the chunked upload. -/
def upload_to_youtube (video_path : Option String) (uploadOk : Bool) : Bool :=
  match video_path with
  | none => false
  | some _ => uploadOk

/-- Embedding of `YouTubeShortsBot.generate_and_upload_short`
(lines 323–352): generate, upload, and `os.remove(video_path)` only under
`if success:`.  Returns (overall success, final disk contents, number of
render invocations).  There is no retry of any stage: each of generation,
render and upload runs at most once per cycle. -/
def generate_and_upload_short (bgListing audListing : List String)
    (disk : List String) (renderOutcome : Option String) (uploadOk : Bool) :
    Bool × List String × Nat :=
  let r := generate_short bgListing audListing disk renderOutcome
  let success := upload_to_youtube r.2.1 uploadOk
  if success then
    (true, match r.2.1 with
           | some p => r.1.erase p
           | none => r.1,
     r.2.2)
  else (false, r.1, r.2.2)

/-! ## CPython `textwrap` model

`VideoCreator._split_text_into_segments` measures text with
`textwrap.fill(text, width=35)` (all options at their defaults).  The model
below embeds CPython's `textwrap.TextWrapper._wrap_chunks` (Python 3.x,
defaults: `replace_whitespace=True`, `drop_whitespace=True`,
`break_long_words=True`, `break_on_hyphens=True`, no indents, no
`max_lines`).

A text is modelled at the granularity `_wrap_chunks` consumes it: the chunk
list produced by `_munge_whitespace` + `_split`.  A chunk is either a run of
whitespace (`Chunk.space n`, its length) or a word (`Chunk.word cs`, its
characters abstracted to whether each is the hyphen `'-'` — the only
character identity `_wrap_chunks` inspects, via `chunk.rfind('-', …)` and
`any(c != '-' …)`; everything else it uses is chunk length and
`chunk.strip() == ''`).  `_split` guarantees whitespace runs become single
chunks, so chunk lists coming from real text never hold two adjacent
whitespace chunks (`NoAdjBlank` below), and a chunk list of one sentence of
`nltk.sent_tokenize` output (non-empty, stripped) starts and ends with a
word chunk (`Wordful` below).  Joining sentences with `' '.join` concatenates
their chunk lists with a single `Chunk.space 1` between them (`segJoin`). -/

/-- A `_wrap_chunks` chunk: a whitespace run of a given length, or a word
whose characters are abstracted to `true` = the hyphen character. -/
inductive Chunk where
  | space : Nat → Chunk
  | word : List Bool → Chunk
  deriving DecidableEq

/-- Length of a chunk (`len(chunk)`). -/
def Chunk.len : Chunk → Nat
  | space n => n
  | word cs => cs.length

/-- Model of `chunk.strip() == ''` (word chunks contain no whitespace, so
only a whitespace chunk or an empty string strips to empty). -/
def Chunk.isBlank : Chunk → Bool
  | space _ => true
  | word cs => cs.isEmpty

/-- Model of the slice `chunk[:k]`. -/
def Chunk.takeN (k : Nat) : Chunk → Chunk
  | space n => space (min k n)
  | word cs => word (cs.take k)

/-- Model of the slice `chunk[k:]`. -/
def Chunk.dropN (k : Nat) : Chunk → Chunk
  | space n => space (n - k)
  | word cs => word (cs.drop k)

/-- Model of `chunk.rfind('-', 0, bound)`: the greatest index `h < bound`
holding a hyphen, `none` when there is none. -/
def lastHyphenBefore : List Bool → Nat → Option Nat
  | [], _ => none
  | _ :: _, 0 => none
  | c :: cs, b + 1 =>
    match lastHyphenBefore cs b with
    | some h => some (h + 1)
    | none => if c then some 0 else none

/-- The `space_left` of `_handle_long_word`:
`1 if width < 1 else width - cur_len`. -/
def space_left (w cum : Nat) : Nat := if w < 1 then 1 else w - cum

/-- The split point `end` computed by `_handle_long_word` for a chunk longer
than the whole line width (the only situation in which `_wrap_chunks` calls
it, so `len(chunk) > space_left` always holds there and the
`break_on_hyphens` branch is always taken): break after the last hyphen
before `space_left` provided that hyphen is not at index 0 and some
character before it is not a hyphen; otherwise take `space_left`
characters. -/
def endSplit (sl : Nat) (c : Chunk) : Nat :=
  match c with
  | Chunk.space _ => sl
  | Chunk.word cs =>
    match lastHyphenBefore cs sl with
    | some h => if 0 < h ∧ (cs.take h).any (fun b => !b) = true then h + 1 else sl
    | none => sl

/-- The line-filling loop of `_wrap_chunks` for one line, after the
leading-whitespace drop: `acc`/`cum` are `cur_line`/`cur_len`; chunks are
popped while they fit (`cur_len + l <= width`); when the next chunk is
longer than the whole width, `_handle_long_word` puts `chunk[:end]` on the
line and leaves `chunk[end:]` as the head of the remainder; otherwise the
line is full and the remainder starts at the unfitting chunk.  Returns
(`cur_line`, remaining chunks). -/
def lineRun (w : Nat) : Nat → List Chunk → List Chunk → List Chunk × List Chunk
  | _, acc, [] => (acc, [])
  | cum, acc, c :: cs =>
    if cum + c.len ≤ w then lineRun w (cum + c.len) (acc ++ [c]) cs
    else if w < c.len then
      (acc ++ [c.takeN (endSplit (space_left w cum) c)],
       c.dropN (endSplit (space_left w cum) c) :: cs)
    else (acc, c :: cs)

/-- The trailing-whitespace drop of `_wrap_chunks`: if the last chunk of
`cur_line` is all whitespace (one chunk only), remove it. -/
def dropTrailBlank (l : List Chunk) : List Chunk :=
  match l.reverse with
  | [] => []
  | c :: t => if c.isBlank then t.reverse else l

/-- One iteration of the `while chunks:` loop of `_wrap_chunks` producing one
candidate line: drop a leading whitespace chunk unless this is the very
first line (`isFirst` models `not lines`), fill the line, drop a trailing
whitespace chunk.  Returns (`cur_line`, remaining chunks); the line is
appended to the output only when non-empty. -/
def wrapLine (w : Nat) (isFirst : Bool) (chunks : List Chunk) : List Chunk × List Chunk :=
  let chunks' := match chunks with
    | c :: rest => if !isFirst && c.isBlank then rest else chunks
    | [] => []
  let p := lineRun w 0 [] chunks'
  (dropTrailBlank p.1, p.2)

/-- Termination measure for the `while chunks:` loop: total chunk length
plus number of chunks (every iteration consumes at least one character or
one chunk). -/
def chunksSize (l : List Chunk) : Nat := (l.map (fun c => c.len + 1)).sum

/-- The `while chunks:` loop of `_wrap_chunks`, fuelled (the fuel is
justified by `chunksSize` strictly decreasing each iteration; see
`wrapLine_size_lt` and `wrapGo_fuel_irrel`). -/
def wrapGo (w : Nat) : Nat → Bool → List Chunk → List (List Chunk)
  | 0, _, _ => []
  | _, _, [] => []
  | fuel + 1, isFirst, c :: cs =>
    let p := wrapLine w isFirst (c :: cs)
    if p.1.isEmpty then wrapGo w fuel isFirst p.2
    else p.1 :: wrapGo w fuel false p.2

/-- Model of `textwrap.wrap(text, width=w)` on the chunk list of `text`:
each returned line is its list of chunks (the Python lines are their
concatenation as a string). -/
def textwrap_wrap (w : Nat) (chunks : List Chunk) : List (List Chunk) :=
  wrapGo w (chunksSize chunks + 1) true chunks

/-- Model of `len(textwrap.fill(text, w).split('\n'))`: `fill` joins the
wrapped lines with `'\n'`, and `''.split('\n')` is `['']`, so an empty wrap
counts as one line. -/
def fill_line_count (w : Nat) (chunks : List Chunk) : Nat :=
  match (textwrap_wrap w chunks).length with
  | 0 => 1
  | n + 1 => n + 1

/-! ## Caption segmenter (`src/video_creator.py`, lines 157–196) -/

/-- A sentence of `nltk.sent_tokenize` output, as its chunk list. -/
abbrev Sentence := List Chunk

/-- `sentence_lines` of `_split_text_into_segments`:
`len(textwrap.fill(sentence, width=35).split('\n'))`. -/
def sentence_lines (s : Sentence) : Nat := fill_line_count 35 s

/-- The sentence loop of `_split_text_into_segments`: greedy accumulation of
sentences into `cur` (`current_segment`) with running line count `curLines`
(`current_lines`); a segment is closed (and kept as its sentence list — the
Python code keeps `' '.join(current_segment)`, `segJoin` below) exactly when
adding the next sentence would exceed `maxLines` and the current segment is
non-empty. -/
def segGo (maxLines : Nat) : List Sentence → List Sentence → Nat → List (List Sentence)
  | [], cur, _ => if cur.isEmpty then [] else [cur]
  | s :: rest, cur, curLines =>
    if maxLines < curLines + sentence_lines s ∧ cur ≠ [] then
      cur :: segGo maxLines rest [s] (sentence_lines s)
    else segGo maxLines rest (cur ++ [s]) (curLines + sentence_lines s)

/-- Embedding of `VideoCreator._split_text_into_segments` (lines 157–182)
applied to the sentence list `sent_tokenize(text)`; `max_lines` defaults to
4 as in the source. -/
def split_text_into_segments (sentences : List Sentence) (maxLines : Nat := 4) :
    List (List Sentence) :=
  segGo maxLines sentences [] 0

/-- The chunk list of `' '.join(segment)`: the sentences' chunk lists joined
by single-space chunks. -/
def segJoin : List Sentence → List Chunk
  | [] => []
  | [s] => s
  | s :: ss => s ++ Chunk.space 1 :: segJoin ss

/-- Total character length of a chunk list (the length of the underlying
string: `_split` partitions the text, and whitespace munging is
length-preserving for tab-free text). -/
def chunksLen (l : List Chunk) : Nat := (l.map Chunk.len).sum

/-- `len(segment)` for a segment kept as its sentence list:
the length of `' '.join(segment)`. -/
def segTextLen (seg : List Sentence) : Nat := chunksLen (segJoin seg)

/-! ## Timing estimator (`src/video_creator.py`, lines 184–196) -/

/-- `total_chars = sum(len(segment) for segment in text_segments)`. -/
def total_chars (segs : List (List Sentence)) : Nat := (segs.map segTextLen).sum

/-- The timing loop of `_estimate_audio_timings`: running `current_time`,
each segment gets the window
`(current_time, current_time + (len(segment)/total_chars) * total_duration)`.
Arithmetic is exact (`ℚ`). -/
def estGo (totalChars total_duration : ℚ) : ℚ → List (List Sentence) → List (ℚ × ℚ)
  | _, [] => []
  | t, s :: rest =>
    (t, t + (segTextLen s : ℚ) / totalChars * total_duration) ::
      estGo totalChars total_duration (t + (segTextLen s : ℚ) / totalChars * total_duration) rest

/-- Embedding of `VideoCreator._estimate_audio_timings` (lines 184–196). -/
def estimate_audio_timings (segs : List (List Sentence)) (total_duration : ℚ) :
    List (ℚ × ℚ) :=
  estGo (total_chars segs : ℚ) total_duration 0 segs

/-- The caption windows `_create_long_video_with_sync` (lines 221–263) places
on the long-form video: segments of the story text are timed against
`story_duration = target_duration - 3` (the 3-second title window), and each
text clip runs from `start_time + 3` for `end_time - start_time` seconds,
i.e. occupies `[start_time + 3, end_time + 3]`. -/
def long_video_caption_windows (sentences : List Sentence) (target_duration : ℚ) :
    List (ℚ × ℚ) :=
  (estimate_audio_timings (split_text_into_segments sentences) (target_duration - 3)).map
    (fun p => (p.1 + 3, p.2 + 3))

/-! ## Well-formedness of chunk lists from real text -/

/-- No two adjacent all-whitespace chunks: `_split` turns each whitespace run
into a single chunk, so chunk lists of real text satisfy this. -/
def NoAdjBlank (l : List Chunk) : Prop :=
  List.Chain' (fun a b => a.isBlank = false ∨ b.isBlank = false) l

/-- Chunk lists arising from one `sent_tokenize` sentence: non-empty, no
adjacent whitespace chunks, every chunk non-empty, first and last chunks are
words (sentences are stripped and non-empty). -/
def Wordful (s : Sentence) : Prop :=
  s ≠ [] ∧ NoAdjBlank s ∧ (∀ c ∈ s, 0 < c.len) ∧
  s.head?.all (fun c => !c.isBlank) = true ∧
  s.getLast?.all (fun c => !c.isBlank) = true

/-- Boolean decision procedure for `NoAdjBlank`. -/
def noAdjBlankB : List Chunk → Bool
  | [] => true
  | [_] => true
  | a :: b :: t => !(a.isBlank && b.isBlank) && noAdjBlankB (b :: t)

instance instNoAdjBlankDec (l : List Chunk) : Decidable (NoAdjBlank l) :=
  decidable_of_iff (noAdjBlankB l = true) (by
    induction l with
    | nil => simp [noAdjBlankB, NoAdjBlank]
    | cons a t ih =>
      cases t with
      | nil => simp [noAdjBlankB, NoAdjBlank]
      | cons b t2 =>
        rw [NoAdjBlank, List.chain'_cons]
        rw [NoAdjBlank] at ih
        rw [show noAdjBlankB (a :: b :: t2) =
          (!(a.isBlank && b.isBlank) && noAdjBlankB (b :: t2)) from rfl,
          Bool.and_eq_true, ih]
        constructor
        · rintro ⟨h1, h2⟩
          refine ⟨?_, h2⟩
          cases ha : a.isBlank <;> cases hb : b.isBlank <;>
            simp [ha, hb] at h1 ⊢
        · rintro ⟨h1, h2⟩
          refine ⟨?_, h2⟩
          cases ha : a.isBlank <;> cases hb : b.isBlank <;>
            simp [ha, hb] at h1 ⊢)

instance (s : Sentence) : Decidable (Wordful s) :=
  inferInstanceAs (Decidable (_ ∧ _ ∧ _ ∧ _ ∧ _))

/-! ## Proof-support definitions for the wrap analysis

The correctness argument for the segmenter's max-lines guarantee analyses
how `_wrap_chunks` consumes its chunk list.  A *state* is the list of
chunks still to be wrapped; `Step` is one consumption action (dropping the
head chunk entirely, or slicing characters off its front, as the greedy
loop and `_handle_long_word` do), and `Reaches` its reflexive-transitive
closure: `Reaches C D` says the wrap engine starting from `C` can be at
`D` after consuming a prefix. -/

/-- One consumption step on a remaining-chunks state. -/
inductive Step : List Chunk → List Chunk → Prop where
  | whole (c : Chunk) (r : List Chunk) : Step (c :: r) r
  | part (c : Chunk) (r : List Chunk) (k : Nat) (h1 : 0 < k) (h2 : k < c.len) :
      Step (c :: r) (c.dropN k :: r)

/-- `Reaches C D`: `D` arises from `C` by consuming a (possibly empty)
prefix, chunk by chunk, the head chunk possibly partially. -/
def Reaches : List Chunk → List Chunk → Prop := Relation.ReflTransGen Step

/-- The leading-whitespace drop of a non-first line (`isFirst = false` in
`wrapLine`). -/
def dropLeadBlank (l : List Chunk) : List Chunk :=
  match l with
  | c :: r => if c.isBlank then r else l
  | [] => []

/-- `wrapGo` at the saturating fuel: the `while chunks:` loop of
`_wrap_chunks` started with flag `isFirst`. -/
def wrapFrom (w : Nat) (isFirst : Bool) (l : List Chunk) : List (List Chunk) :=
  wrapGo w (chunksSize l + 1) isFirst l

/-- The final `cur_len` after the greedy pop loop consumes all of `l`
starting from `cum`, when everything fits on the line (`none` when the loop
would stop inside `l`). -/
def fitCum (w : Nat) : Nat → List Chunk → Option Nat
  | cum, [] => some cum
  | cum, c :: cs => if cum + c.len ≤ w then fitCum w (cum + c.len) cs else none

/-! # Theorems -/

/-! ## Supporting lemmas: segmenter output and timing estimator -/

/-- Every segment the sentence loop emits is a non-empty sentence list whose
sentences come from the current segment or the remaining input. -/
theorem segGo_sound (m : Nat) (l : List Sentence) :
    ∀ (cur : List Sentence) (cl : Nat) (seg : List Sentence),
      seg ∈ segGo m l cur cl → seg ≠ [] ∧ ∀ s ∈ seg, s ∈ cur ∨ s ∈ l := by
  induction l with
  | nil =>
    intro cur cl seg hseg
    unfold segGo at hseg
    by_cases hc : cur.isEmpty
    · rw [if_pos hc] at hseg; exact absurd hseg (by simp)
    · rw [if_neg hc] at hseg
      have : seg = cur := by simpa using hseg
      subst this
      exact ⟨by simpa [List.isEmpty_iff] using hc, fun s hs => Or.inl hs⟩
  | cons a rest ih =>
    intro cur cl seg hseg
    unfold segGo at hseg
    by_cases hcond : m < cl + sentence_lines a ∧ cur ≠ []
    · rw [if_pos hcond] at hseg
      rcases List.mem_cons.mp hseg with h | h
      · subst h
        exact ⟨hcond.2, fun s hs => Or.inl hs⟩
      · rcases ih [a] (sentence_lines a) seg h with ⟨hne, hmem⟩
        refine ⟨hne, fun s hs => ?_⟩
        rcases hmem s hs with h' | h'
        · exact Or.inr (List.mem_cons.mpr (Or.inl (by simpa using h')))
        · exact Or.inr (List.mem_cons.mpr (Or.inr h'))
    · rw [if_neg hcond] at hseg
      rcases ih (cur ++ [a]) (cl + sentence_lines a) seg hseg with ⟨hne, hmem⟩
      refine ⟨hne, fun s hs => ?_⟩
      rcases hmem s hs with h' | h'
      · rcases List.mem_append.mp h' with h'' | h''
        · exact Or.inl h''
        · exact Or.inr (List.mem_cons.mpr (Or.inl (by simpa using h'')))
      · exact Or.inr (List.mem_cons.mpr (Or.inr h'))

/-- Segments of `split_text_into_segments` are non-empty lists of input
sentences. -/
theorem split_segments_sound (sentences : List Sentence) (m : Nat)
    (seg : List Sentence) (hseg : seg ∈ split_text_into_segments sentences m) :
    seg ≠ [] ∧ ∀ s ∈ seg, s ∈ sentences := by
  rcases segGo_sound m sentences [] 0 seg hseg with ⟨hne, hmem⟩
  exact ⟨hne, fun s hs => (hmem s hs).resolve_left (by simp)⟩

/-- `chunksLen` is additive. -/
theorem chunksLen_append (a b : List Chunk) :
    chunksLen (a ++ b) = chunksLen a + chunksLen b := by
  simp [chunksLen]

/-- A `Wordful` sentence has positive character length. -/
theorem chunksLen_pos_of_wordful (s : Sentence) (hw : Wordful s) :
    0 < chunksLen s := by
  rcases hw with ⟨hne, -, hpos, -, -⟩
  cases s with
  | nil => exact absurd rfl hne
  | cons c cs =>
    have : 0 < c.len := hpos c (List.mem_cons_self c cs)
    simp only [chunksLen, List.map_cons, List.sum_cons]
    omega

/-- A non-empty segment of `Wordful` sentences has positive text length. -/
theorem segTextLen_pos (seg : List Sentence) (hne : seg ≠ [])
    (hw : ∀ s ∈ seg, Wordful s) : 0 < segTextLen seg := by
  cases seg with
  | nil => exact absurd rfl hne
  | cons s ss =>
    have hs : 0 < chunksLen s :=
      chunksLen_pos_of_wordful s (hw s (List.mem_cons_self s ss))
    cases ss with
    | nil => simpa [segTextLen, segJoin] using hs
    | cons s2 ss2 =>
      have : segJoin (s :: s2 :: ss2) = s ++ Chunk.space 1 :: segJoin (s2 :: ss2) := rfl
      rw [segTextLen, this, chunksLen_append]
      omega

/-- With a non-empty segment list of `Wordful` sentences, the estimator's
divisor `total_chars` is positive — the division by it is never a division
by zero. -/
theorem total_chars_pos (segs : List (List Sentence)) (hne : segs ≠ [])
    (hpos : ∀ seg ∈ segs, 0 < segTextLen seg) : 0 < total_chars segs := by
  cases segs with
  | nil => exact absurd rfl hne
  | cons seg rest =>
    have h1 : 0 < segTextLen seg := hpos seg (List.mem_cons_self seg rest)
    simp only [total_chars, List.map_cons, List.sum_cons]
    omega

/-- Length of the estimator output. -/
theorem estGo_length (T D : ℚ) (l : List (List Sentence)) :
    ∀ t, (estGo T D t l).length = l.length := by
  induction l with
  | nil => intro t; rfl
  | cons s rest ih => intro t; simp [estGo, ih]

/-- Closed form of the estimator windows: from base time `t`, segment `i`
occupies `[t + Σ_{j<i} d_j, t + Σ_{j<i+1} d_j]` with
`d_j = len(seg_j)/total * D`. -/
theorem estGo_get (T D : ℚ) (l : List (List Sentence)) :
    ∀ (t : ℚ) (i : Nat) (h : i < l.length),
      (estGo T D t l).get ⟨i, by rw [estGo_length]; exact h⟩ =
        (t + ((l.take i).map (fun s => (segTextLen s : ℚ) / T * D)).sum,
         t + ((l.take (i + 1)).map (fun s => (segTextLen s : ℚ) / T * D)).sum) := by
  induction l with
  | nil => intro t i h; exact absurd h (by simp)
  | cons s rest ih =>
    intro t i h
    cases i with
    | zero => simp [estGo]
    | succ i =>
      have h' : i < rest.length := by simpa using h
      have := ih (t + (segTextLen s : ℚ) / T * D) i h'
      simp only [List.get_eq_getElem] at this ⊢
      simp only [estGo, List.getElem_cons_succ, this, List.take_succ_cons,
        List.map_cons, List.sum_cons, Prod.mk.injEq]
      constructor <;> ring

/-- The durations of the estimator windows sum to
`Σ len(seg)/total * D` exactly. -/
theorem estGo_sum_durations (T D : ℚ) (l : List (List Sentence)) :
    ∀ t, ((estGo T D t l).map (fun p => p.2 - p.1)).sum =
      (l.map (fun s => (segTextLen s : ℚ) / T * D)).sum := by
  induction l with
  | nil => intro t; rfl
  | cons s rest ih =>
    intro t
    simp only [estGo, List.map_cons, List.sum_cons, ih]
    ring

/-- Normalization: the proportional durations sum to exactly `D` when the
divisor is the (non-zero) total character count. -/
theorem sum_proportional_eq (D : ℚ) (l : List (List Sentence)) (T : ℚ)
    (hT : T = ((l.map (fun s => (segTextLen s : ℚ))).sum)) (hT0 : T ≠ 0) :
    (l.map (fun s => (segTextLen s : ℚ) / T * D)).sum = D := by
  have key : ∀ (m : List (List Sentence)),
      (m.map (fun s => (segTextLen s : ℚ) / T * D)).sum =
        ((m.map (fun s => (segTextLen s : ℚ))).sum) / T * D := by
    intro m
    induction m with
    | nil => simp
    | cons a r ih => simp only [List.map_cons, List.sum_cons, ih]; ring
  rw [key, ← hT, div_self hT0, one_mul]

/-- `total_chars` as the sum of the rational segment lengths. -/
theorem total_chars_cast (segs : List (List Sentence)) :
    ((total_chars segs : ℚ)) = ((segs.map (fun s => (segTextLen s : ℚ))).sum) := by
  induction segs with
  | nil => simp [total_chars]
  | cons a r ih =>
    simp only [total_chars, List.map_cons, List.sum_cons] at ih ⊢
    push_cast
    rw [← ih]
    push_cast
    ring

/-- Length of the estimator output, stated for `estimate_audio_timings`. -/
theorem estimate_length (segs : List (List Sentence)) (D : ℚ) :
    (estimate_audio_timings segs D).length = segs.length := by
  unfold estimate_audio_timings
  exact estGo_length _ _ _ _

/-- Splitting a sum over `take (i+1)` into the sum over `take i` plus the
`i`-th term. -/
theorem sum_map_take_succ (f : List Sentence → ℚ) (l : List (List Sentence))
    (i : Nat) (h : i < l.length) :
    ((l.take (i + 1)).map f).sum = ((l.take i).map f).sum + f (l.get ⟨i, h⟩) := by
  rw [List.take_succ, List.getElem?_eq_getElem h]
  simp only [Option.toList_some, List.map_append, List.sum_append, List.map_cons,
    List.map_nil, List.sum_cons, List.sum_nil, List.get_eq_getElem]
  ring

/-! ## C1 — proportional, contiguous, normalized caption timings -/

/-- C1: for every non-empty segment list produced by the Caption Segmenter
(from `Wordful` sentences, as `sent_tokenize` yields) and every total
available duration `D`, the timing estimator assigns each segment the
duration `len(segment)/total_chars * D` (proportional to its character
count), the windows are contiguous — the first window starts at 0 and each
window starts where the previous one ends — and the durations sum to
exactly `D` (the exact-arithmetic reading of "within floating-point
tolerance"). -/
theorem timing_estimator_spec (sentences : List Sentence) (D : ℚ)
    (segs : List (List Sentence))
    (hw : ∀ s ∈ sentences, Wordful s)
    (hsegs : segs = split_text_into_segments sentences)
    (hne : segs ≠ []) :
    (estimate_audio_timings segs D).length = segs.length ∧
    (∀ i p seg, (estimate_audio_timings segs D).get? i = some p →
      segs.get? i = some seg →
      p.2 - p.1 = (segTextLen seg : ℚ) / (total_chars segs : ℚ) * D) ∧
    ((estimate_audio_timings segs D).head?.map Prod.fst = some 0) ∧
    (∀ i p q, (estimate_audio_timings segs D).get? i = some p →
      (estimate_audio_timings segs D).get? (i + 1) = some q →
      q.1 = p.2) ∧
    ((estimate_audio_timings segs D).map (fun p => p.2 - p.1)).sum = D := by
  have hsound : ∀ seg ∈ segs, seg ≠ [] ∧ ∀ s ∈ seg, s ∈ sentences := by
    intro seg hseg
    exact split_segments_sound sentences 4 seg (hsegs ▸ hseg)
  have hpos : 0 < total_chars segs :=
    total_chars_pos segs hne (fun seg hseg =>
      segTextLen_pos seg (hsound seg hseg).1
        (fun s hs => hw s ((hsound seg hseg).2 s hs)))
  have hT0 : (total_chars segs : ℚ) ≠ 0 := by exact_mod_cast hpos.ne'
  refine ⟨estimate_length segs D, ?_, ?_, ?_, ?_⟩
  · intro i p seg hp hseg
    rcases List.get?_eq_some.mp hp with ⟨hip, hgetp⟩
    rcases List.get?_eq_some.mp hseg with ⟨his, hgets⟩
    have hi : i < segs.length := his
    have hpair := ((estGo_get (total_chars segs : ℚ) D segs 0 i hi).symm.trans hgetp)
    have hseg2 : segs.get ⟨i, hi⟩ = seg := hgets
    rw [← hpair, ← hseg2]
    simp only [sum_map_take_succ (fun s => (segTextLen s : ℚ) / (total_chars segs : ℚ) * D) segs i hi]
    ring
  · obtain ⟨s, rest, rfl⟩ : ∃ s rest, segs = s :: rest := by
      cases segs with
      | nil => exact absurd rfl hne
      | cons s rest => exact ⟨s, rest, rfl⟩
    simp [estimate_audio_timings, estGo]
  · intro i p q hp hq
    rcases List.get?_eq_some.mp hp with ⟨hip, hgetp⟩
    rcases List.get?_eq_some.mp hq with ⟨hiq, hgetq⟩
    have hi1 : i + 1 < segs.length := by
      rw [estimate_length] at hiq; exact hiq
    have hi : i < segs.length := Nat.lt_of_succ_lt hi1
    have e1 := ((estGo_get (total_chars segs : ℚ) D segs 0 i hi).symm.trans hgetp)
    have e2 := ((estGo_get (total_chars segs : ℚ) D segs 0 (i + 1) hi1).symm.trans hgetq)
    rw [← e1, ← e2]
  · unfold estimate_audio_timings
    rw [estGo_sum_durations]
    exact sum_proportional_eq D segs _ (total_chars_cast segs) hT0

/-- C1 witness: one three-character sentence, narration 65 s so the
available duration is 62 s — the single window starts at 0 and the durations
sum to exactly 62. -/
theorem timing_estimator_spec_witness :
    ((estimate_audio_timings
        (split_text_into_segments [[Chunk.word [false, false, false]]]) 62).map
      (fun p => p.2 - p.1)).sum = 62 ∧
    (estimate_audio_timings
        (split_text_into_segments [[Chunk.word [false, false, false]]]) 62).head?.map
      Prod.fst = some 0 := by
  have h := timing_estimator_spec [[Chunk.word [false, false, false]]] 62
    (split_text_into_segments [[Chunk.word [false, false, false]]])
    (by decide) rfl (by decide)
  exact ⟨h.2.2.2.2, h.2.2.1⟩

/-! ## C9 — the estimator's division is never by zero -/

/-- C9: the divisor `total_chars` of the timing estimator is never zero on
segmenter output: every segment the segmenter emits is non-empty text (so
the total character count is positive once there is a segment), and for
empty input the segment list is empty and the estimator returns the empty
timing list without ever executing the division. -/
theorem estimator_no_division_by_zero (sentences : List Sentence) (D : ℚ)
    (hw : ∀ s ∈ sentences, Wordful s) :
    (sentences = [] → split_text_into_segments sentences = [] ∧
      estimate_audio_timings (split_text_into_segments sentences) D = []) ∧
    (∀ seg ∈ split_text_into_segments sentences, seg ≠ [] ∧ 0 < segTextLen seg) ∧
    (split_text_into_segments sentences ≠ [] →
      0 < total_chars (split_text_into_segments sentences)) := by
  refine ⟨?_, ?_, ?_⟩
  · intro h
    subst h
    exact ⟨rfl, rfl⟩
  · intro seg hseg
    have hs := split_segments_sound sentences 4 seg hseg
    exact ⟨hs.1, segTextLen_pos seg hs.1 (fun s hs' => hw s (hs.2 s hs'))⟩
  · intro hne
    refine total_chars_pos _ hne (fun seg hseg => ?_)
    have hs := split_segments_sound sentences 4 seg hseg
    exact segTextLen_pos seg hs.1 (fun s hs' => hw s (hs.2 s hs'))

/-- C9 witness: on the empty sentence list both the segment list and the
timing list are empty, and on a one-sentence input the divisor is
positive. -/
theorem estimator_no_division_by_zero_witness :
    (split_text_into_segments ([] : List Sentence) = [] ∧
      estimate_audio_timings (split_text_into_segments ([] : List Sentence)) 10 = []) ∧
    0 < total_chars (split_text_into_segments [[Chunk.word [false, false, false]]]) := by
  constructor
  · exact (estimator_no_division_by_zero [] 10 (by decide)).1 rfl
  · exact (estimator_no_division_by_zero [[Chunk.word [false, false, false]]] 10
      (by decide)).2.2 (by decide)

/-! ## C3 — caption windows on the long-form video -/

/-- C3: for every story text (as `Wordful` sentences) and every narration
duration greater than the 3-second title window, the caption windows placed
on the long-form video are contiguous and strictly increasing (each window
has positive length and starts exactly where the previous one ends, so the
windows do not overlap), the first window starts exactly at 3 s — when the
title-display window ends — and no window extends past the narration
duration. -/
theorem caption_windows_invariant (sentences : List Sentence) (target : ℚ)
    (hw : ∀ s ∈ sentences, Wordful s) (htarget : 3 < target) :
    (∀ i p q, (long_video_caption_windows sentences target).get? i = some p →
      (long_video_caption_windows sentences target).get? (i + 1) = some q →
      q.1 = p.2) ∧
    (∀ p ∈ long_video_caption_windows sentences target, p.1 < p.2) ∧
    (long_video_caption_windows sentences target ≠ [] →
      (long_video_caption_windows sentences target).head?.map Prod.fst = some 3) ∧
    (∀ p ∈ long_video_caption_windows sentences target, p.2 ≤ target) := by
  set segs := split_text_into_segments sentences with hsegs
  set T : ℚ := (total_chars segs : ℚ) with hT
  set f : List Sentence → ℚ := fun s => (segTextLen s : ℚ) / T * (target - 3) with hf
  have hsound : ∀ seg ∈ segs, seg ≠ [] ∧ ∀ s ∈ seg, s ∈ sentences := by
    intro seg hseg
    exact split_segments_sound sentences 4 seg (hsegs ▸ hseg)
  have hlen : ∀ seg ∈ segs, 0 < segTextLen seg := fun seg hseg =>
    segTextLen_pos seg (hsound seg hseg).1 (fun s hs => hw s ((hsound seg hseg).2 s hs))
  have hD : (0 : ℚ) < target - 3 := by linarith
  have hfpos : ∀ seg ∈ segs, 0 < f seg := by
    intro seg hseg
    by_cases hne : segs = []
    · exact absurd (hne ▸ hseg) (by simp)
    · have hTpos : (0 : ℚ) < T := by
        rw [hT]
        exact_mod_cast total_chars_pos segs hne hlen
      have : (0 : ℚ) < (segTextLen seg : ℚ) := by exact_mod_cast hlen seg hseg
      exact mul_pos (div_pos this hTpos) hD
  have hwin : ∀ i p, (long_video_caption_windows sentences target).get? i = some p →
      ∃ hi : i < segs.length,
        p = (3 + ((segs.take i).map f).sum, 3 + ((segs.take (i + 1)).map f).sum) := by
    intro i p hp
    unfold long_video_caption_windows at hp
    rw [List.get?_map] at hp
    rw [← hsegs] at hp
    cases hts : (estimate_audio_timings segs (target - 3)).get? i with
    | none => rw [hts] at hp; exact absurd hp (by simp)
    | some p0 =>
      rw [hts] at hp
      rcases List.get?_eq_some.mp hts with ⟨hip, hget0⟩
      have hi : i < segs.length := by rwa [estimate_length] at hip
      have hpair := ((estGo_get T (target - 3) segs 0 i hi).symm.trans hget0)
      refine ⟨hi, ?_⟩
      have hp' : p = (p0.1 + 3, p0.2 + 3) := by
        simpa using hp.symm
      rw [hp', ← hpair]
      dsimp only
      simp only [hf, Prod.mk.injEq]
      constructor <;> ring
  refine ⟨?_, ?_, ?_, ?_⟩
  · intro i p q hp hq
    rcases hwin i p hp with ⟨hi, hpf⟩
    rcases hwin (i + 1) q hq with ⟨hi1, hqf⟩
    rw [hpf, hqf]
  · intro p hp
    rcases List.mem_iff_get?.mp hp with ⟨i, hip⟩
    rcases hwin i p hip with ⟨hi, hpf⟩
    rw [hpf]
    simp only
    rw [sum_map_take_succ f segs i hi]
    have : 0 < f (segs.get ⟨i, hi⟩) := hfpos _ (List.get_mem segs i hi)
    linarith
  · intro hne
    cases hl : long_video_caption_windows sentences target with
    | nil => exact absurd hl hne
    | cons p rest =>
      have hws : (long_video_caption_windows sentences target).get? 0 = some p := by
        rw [hl]; rfl
      rcases hwin 0 p hws with ⟨hi, hpf⟩
      simp [hpf]
  · intro p hp
    rcases List.mem_iff_get?.mp hp with ⟨i, hip⟩
    rcases hwin i p hip with ⟨hi, hpf⟩
    have hsum : (segs.map f).sum = target - 3 := by
      by_cases hne : segs = []
      · rcases List.mem_iff_get?.mp hp with ⟨n, hn⟩
        exact absurd hi (by simp [hne])
      · refine sum_proportional_eq (target - 3) segs T (total_chars_cast segs) ?_
        have := total_chars_pos segs hne hlen
        rw [hT]
        exact_mod_cast this.ne'
    have hprefix : ((segs.take (i + 1)).map f).sum ≤ (segs.map f).sum := by
      conv_rhs => rw [← List.take_append_drop (i + 1) segs]
      rw [List.map_append, List.sum_append]
      have : 0 ≤ ((segs.drop (i + 1)).map f).sum := by
        refine List.sum_nonneg ?_
        intro a ha
        rcases List.mem_map.mp ha with ⟨s, hs, rfl⟩
        exact le_of_lt (hfpos s (List.mem_of_mem_drop hs))
      linarith
    rw [hpf]
    simp only
    rw [hsum] at hprefix
    linarith

/-- C3 witness: a three-character story over a 65-second narration — the
single caption window starts exactly at 3 s. -/
theorem caption_windows_invariant_witness :
    (long_video_caption_windows [[Chunk.word [false, false, false]]] 65).head?.map
      Prod.fst = some 3 := by
  have h := caption_windows_invariant [[Chunk.word [false, false, false]]] 65
    (by decide) (by norm_num)
  exact h.2.2.1 (by decide)

/-! ## C2 support: chunk, size and consumption-step basics -/

theorem Chunk.dropN_len (c : Chunk) (k : Nat) : (c.dropN k).len = c.len - k := by
  cases c <;> simp [Chunk.dropN, Chunk.len]

theorem Chunk.dropN_zero (c : Chunk) : c.dropN 0 = c := by
  cases c <;> simp [Chunk.dropN]

theorem Chunk.dropN_dropN (c : Chunk) (k j : Nat) :
    (c.dropN k).dropN j = c.dropN (k + j) := by
  cases c with
  | space n =>
    show Chunk.space (n - k - j) = Chunk.space (n - (k + j))
    congr 1
    omega
  | word cs =>
    show Chunk.word ((cs.drop k).drop j) = Chunk.word (cs.drop (k + j))
    rw [List.drop_drop]

theorem Chunk.isBlank_dropN_of_blank {c : Chunk} (k : Nat)
    (h : c.isBlank = true) : (c.dropN k).isBlank = true := by
  cases c with
  | space n => rfl
  | word cs =>
    simp only [Chunk.isBlank, List.isEmpty_iff] at h
    subst h
    simp [Chunk.dropN, Chunk.isBlank]

theorem Chunk.isBlank_dropN_of_lt {c : Chunk} {k : Nat}
    (h : c.isBlank = false) (hk : k < c.len) : (c.dropN k).isBlank = false := by
  cases c with
  | space n => simp [Chunk.isBlank] at h
  | word cs =>
    have hk' : k < cs.length := hk
    have hne : cs.drop k ≠ [] := by
      intro hnil
      have := List.drop_eq_nil_iff.mp hnil
      omega
    simp [Chunk.dropN, Chunk.isBlank, List.isEmpty_iff, hne]

theorem chunksSize_nil : chunksSize [] = 0 := rfl

theorem chunksSize_cons (c : Chunk) (r : List Chunk) :
    chunksSize (c :: r) = c.len + 1 + chunksSize r := by
  simp [chunksSize]

theorem chunksSize_append (a b : List Chunk) :
    chunksSize (a ++ b) = chunksSize a + chunksSize b := by
  simp [chunksSize]

theorem chunksSize_eq_zero {l : List Chunk} (h : chunksSize l = 0) : l = [] := by
  cases l with
  | nil => rfl
  | cons c r => rw [chunksSize_cons] at h; omega

theorem Step.size_lt {a b : List Chunk} (h : Step a b) :
    chunksSize b < chunksSize a := by
  cases h with
  | whole c r => rw [chunksSize_cons]; omega
  | part c r k h1 h2 =>
    rw [chunksSize_cons, chunksSize_cons, Chunk.dropN_len]
    omega

theorem Step.reaches {a b : List Chunk} (h : Step a b) : Reaches a b :=
  Relation.ReflTransGen.single h

theorem Reaches.rfl (l : List Chunk) : Reaches l l := Relation.ReflTransGen.refl

theorem Reaches.trans {a b c : List Chunk} (h1 : Reaches a b) (h2 : Reaches b c) :
    Reaches a c := Relation.ReflTransGen.trans h1 h2

theorem Reaches.size_le {a b : List Chunk} (h : Reaches a b) :
    chunksSize b ≤ chunksSize a := by
  induction h with
  | refl => exact le_rfl
  | tail _ hstep ih => exact le_trans (le_of_lt hstep.size_lt) ih

theorem reaches_tail (c : Chunk) (r : List Chunk) : Reaches (c :: r) r :=
  (Step.whole c r).reaches

theorem reaches_nil (l : List Chunk) : Reaches l [] := by
  induction l with
  | nil => exact Reaches.rfl []
  | cons c r ih => exact (reaches_tail c r).trans ih

theorem step_nil_elim {X : List Chunk} (h : Step [] X) : False := by
  cases h

theorem reaches_nil_inv {X : List Chunk} (h : Reaches [] X) : X = [] := by
  rcases h.cases_head with heq | ⟨Y, hstep, _⟩
  · exact heq.symm
  · exact absurd hstep step_nil_elim

theorem reaches_dropN (c : Chunk) (r : List Chunk) (k : Nat) (hk : k < c.len) :
    Reaches (c :: r) (c.dropN k :: r) := by
  cases k with
  | zero => rw [Chunk.dropN_zero]; exact Reaches.rfl _
  | succ k => exact (Step.part c r (k + 1) (Nat.succ_pos k) hk).reaches

theorem reaches_eq_of_size_le {a b : List Chunk} (h : Reaches a b)
    (hs : chunksSize a ≤ chunksSize b) : a = b := by
  rcases h.cases_head with heq | ⟨Y, hstep, hY⟩
  · exact heq
  · have h1 := Reaches.size_le hY
    have h2 := hstep.size_lt
    omega

/-- Shape of the states reachable from `c :: r`: either still inside `c`
(a suffix slice of `c` over the unchanged tail) or at-or-past `r`. -/
theorem reaches_cons_inv {X : List Chunk} (c : Chunk) (r : List Chunk)
    (h : Reaches (c :: r) X) :
    X = c :: r ∨ (∃ j, 0 < j ∧ j < c.len ∧ X = c.dropN j :: r) ∨ Reaches r X := by
  have general : ∀ (A : List Chunk), Reaches A X → ∀ (c : Chunk) (r : List Chunk),
      A = c :: r →
      X = c :: r ∨ (∃ j, 0 < j ∧ j < c.len ∧ X = c.dropN j :: r) ∨ Reaches r X := by
    intro A hA
    induction hA using Relation.ReflTransGen.head_induction_on with
    | refl => intro c r hEq; exact Or.inl hEq
    | head hstep _ ih =>
      intro c r hEq
      subst hEq
      cases hstep with
      | whole c r =>
        rename_i hrest
        exact Or.inr (Or.inr hrest)
      | part c r k h1 h2 =>
        rcases ih (c.dropN k) r rfl with h | ⟨j, hj0, hjlen, hX⟩ | h
        · exact Or.inr (Or.inl ⟨k, h1, h2, h⟩)
        · rw [Chunk.dropN_dropN] at hX
          rw [Chunk.dropN_len] at hjlen
          exact Or.inr (Or.inl ⟨k + j, by omega, by omega, hX⟩)
        · exact Or.inr (Or.inr h)
  exact general (c :: r) h c r rfl

/-- Two single steps from a common state lead to comparable states. -/
theorem step_comparable {C X Y : List Chunk} (h1 : Step C X) (h2 : Step C Y) :
    X = Y ∨ Reaches X Y ∨ Reaches Y X := by
  cases h1 with
  | whole c r =>
    cases h2 with
    | whole => exact Or.inl rfl
    | part _ _ k2 hk21 hk22 => exact Or.inr (Or.inr (reaches_tail _ _))
  | part c r k hk1 hk2 =>
    cases h2 with
    | whole => exact Or.inr (Or.inl (reaches_tail _ _))
    | part _ _ k2 hk21 hk22 =>
      rcases Nat.lt_trichotomy k k2 with hlt | heq | hgt
      · refine Or.inr (Or.inl ?_)
        have hcomp : (c.dropN k).dropN (k2 - k) = c.dropN k2 := by
          rw [Chunk.dropN_dropN]; congr 1; omega
        rw [← hcomp]
        refine reaches_dropN _ r (k2 - k) ?_
        rw [Chunk.dropN_len]; omega
      · exact Or.inl (by rw [heq])
      · refine Or.inr (Or.inr ?_)
        have hcomp : (c.dropN k2).dropN (k - k2) = c.dropN k := by
          rw [Chunk.dropN_dropN]; congr 1; omega
        rw [← hcomp]
        refine reaches_dropN _ r (k - k2) ?_
        rw [Chunk.dropN_len]; omega

/-- Any two states reachable from a common state are comparable: the
reachable set is a chain. -/
theorem reaches_total : ∀ (n : Nat) (C A B : List Chunk), chunksSize C ≤ n →
    Reaches C A → Reaches C B → Reaches A B ∨ Reaches B A := by
  intro n
  induction n with
  | zero =>
    intro C A B hs hA hB
    have hC : C = [] := chunksSize_eq_zero (Nat.le_zero.mp hs)
    subst hC
    rw [reaches_nil_inv hA, reaches_nil_inv hB]
    exact Or.inl (Reaches.rfl [])
  | succ n ih =>
    intro C A B hs hA hB
    rcases hA.cases_head with heqA | ⟨X, hstepX, hX⟩
    · exact Or.inl (heqA ▸ hB)
    · rcases hB.cases_head with heqB | ⟨Y, hstepY, hY⟩
      · exact Or.inr (heqB ▸ hA)
      · have hsX : chunksSize X ≤ n := by
          have := hstepX.size_lt; omega
        have hsY : chunksSize Y ≤ n := by
          have := hstepY.size_lt; omega
        rcases step_comparable hstepX hstepY with heq | hXY | hYX
        · exact ih X A B hsX hX (heq ▸ hY)
        · exact ih X A B hsX hX (hXY.trans hY)
        · exact ih Y A B hsY (hYX.trans hX) hY

/-- `NoAdjBlank` is preserved by a consumption step. -/
theorem step_preserves_noAdjBlank {a b : List Chunk} (h : Step a b) (ha : NoAdjBlank a) :
    NoAdjBlank b := by
  cases h with
  | whole c r => exact (List.chain'_cons'.mp ha).2
  | part c r k h1 h2 =>
    rw [NoAdjBlank, List.chain'_cons'] at ha ⊢
    refine ⟨?_, ha.2⟩
    intro y hy
    rcases ha.1 y hy with hc | hy'
    · left
      exact Chunk.isBlank_dropN_of_lt hc h2
    · right
      exact hy'

theorem Reaches.noAdjBlank {a b : List Chunk} (h : Reaches a b)
    (ha : NoAdjBlank a) : NoAdjBlank b := by
  induction h with
  | refl => exact ha
  | tail _ hstep ih => exact step_preserves_noAdjBlank hstep ih

/-- A single consumption step keeps the last chunk a word (as long as
anything is left). -/
theorem step_preserves_lastBlank {a b : List Chunk} (h : Step a b)
    (ha : a.getLast?.all (fun c => !c.isBlank) = true) (hb : b ≠ []) :
    b.getLast?.all (fun c => !c.isBlank) = true := by
  cases h with
  | whole c _ =>
    cases b with
    | nil => exact absurd rfl hb
    | cons x xs => rwa [List.getLast?_cons_cons] at ha
  | part c r k h1 h2 =>
    cases r with
    | nil =>
      simp only [List.getLast?_singleton, Option.all_some, Bool.not_eq_eq_eq_not,
        Bool.not_true] at ha ⊢
      exact Chunk.isBlank_dropN_of_lt ha h2
    | cons x xs =>
      rw [List.getLast?_cons_cons] at ha ⊢
      exact ha

/-- The last chunk stays a word along consumption (as long as anything is
left). -/
theorem Reaches.lastBlank {a b : List Chunk} (h : Reaches a b)
    (ha : a.getLast?.all (fun c => !c.isBlank) = true) (hb : b ≠ []) :
    b.getLast?.all (fun c => !c.isBlank) = true := by
  induction h with
  | refl => exact ha
  | tail hr hstep ih =>
    refine step_preserves_lastBlank hstep (ih ?_) hb
    intro hn
    rw [hn] at hstep
    exact step_nil_elim hstep

/-! ## C2 support: the line-filling loop -/

theorem lineRun_nil (w cum : Nat) (acc : List Chunk) :
    lineRun w cum acc [] = (acc, []) := rfl

theorem lineRun_cons (w cum : Nat) (acc : List Chunk) (c : Chunk) (cs : List Chunk) :
    lineRun w cum acc (c :: cs) =
      if cum + c.len ≤ w then lineRun w (cum + c.len) (acc ++ [c]) cs
      else if w < c.len then
        (acc ++ [c.takeN (endSplit (space_left w cum) c)],
         c.dropN (endSplit (space_left w cum) c) :: cs)
      else (acc, c :: cs) := rfl

theorem lastHyphenBefore_lt :
    ∀ (cs : List Bool) (b h : Nat), lastHyphenBefore cs b = some h →
      h < b ∧ h < cs.length := by
  intro cs
  induction cs with
  | nil => intro b h hh; simp [lastHyphenBefore] at hh
  | cons c cs ih =>
    intro b h hh
    cases b with
    | zero => simp [lastHyphenBefore] at hh
    | succ b =>
      rw [show lastHyphenBefore (c :: cs) (b + 1) =
        (match lastHyphenBefore cs b with
         | some h => some (h + 1)
         | none => if c then some 0 else none) from rfl] at hh
      cases hrec : lastHyphenBefore cs b with
      | some h' =>
        rw [hrec] at hh
        cases hh
        have := ih b h' hrec
        constructor <;> simp <;> omega
      | none =>
        rw [hrec] at hh
        by_cases hc : c = true
        · rw [if_pos hc] at hh
          cases hh
          exact ⟨Nat.succ_pos b, by simp⟩
        · rw [if_neg hc] at hh
          cases hh

theorem endSplit_space (sl n : Nat) : endSplit sl (Chunk.space n) = sl := rfl

theorem endSplit_word (sl : Nat) (cs : List Bool) :
    endSplit sl (Chunk.word cs) =
      (match lastHyphenBefore cs sl with
       | some h => if 0 < h ∧ (cs.take h).any (fun b => !b) = true then h + 1 else sl
       | none => sl) := rfl

theorem endSplit_le (sl : Nat) (c : Chunk) : endSplit sl c ≤ sl := by
  cases c with
  | space n => rw [endSplit_space]
  | word cs =>
    rw [endSplit_word]
    cases hh : lastHyphenBefore cs sl with
    | none => exact le_rfl
    | some h =>
      simp only
      by_cases hv : 0 < h ∧ (cs.take h).any (fun b => !b) = true
      · rw [if_pos hv]
        exact (lastHyphenBefore_lt cs sl h hh).1
      · rw [if_neg hv]

theorem endSplit_pos (sl : Nat) (c : Chunk) (hsl : 1 ≤ sl) :
    1 ≤ endSplit sl c := by
  cases c with
  | space n => rw [endSplit_space]; exact hsl
  | word cs =>
    rw [endSplit_word]
    cases hh : lastHyphenBefore cs sl with
    | none => exact hsl
    | some h =>
      simp only
      by_cases hv : 0 < h ∧ (cs.take h).any (fun b => !b) = true
      · rw [if_pos hv]; omega
      · rw [if_neg hv]; exact hsl

theorem lineRun_rest_acc (w : Nat) :
    ∀ (l : List Chunk) (cum : Nat) (acc acc' : List Chunk),
      (lineRun w cum acc l).2 = (lineRun w cum acc' l).2 := by
  intro l
  induction l with
  | nil => intro cum acc acc'; rfl
  | cons c cs ih =>
    intro cum acc acc'
    rw [lineRun_cons, lineRun_cons]
    by_cases h1 : cum + c.len ≤ w
    · rw [if_pos h1, if_pos h1]; exact ih _ _ _
    · rw [if_neg h1, if_neg h1]
      by_cases h2 : w < c.len
      · rw [if_pos h2, if_pos h2]
      · rw [if_neg h2, if_neg h2]

theorem lineRun_rest_reaches (w : Nat) (hw : 1 ≤ w) :
    ∀ (l : List Chunk) (cum : Nat) (acc : List Chunk),
      Reaches l (lineRun w cum acc l).2 := by
  intro l
  induction l with
  | nil => intro cum acc; exact Reaches.rfl []
  | cons c cs ih =>
    intro cum acc
    rw [lineRun_cons]
    by_cases h1 : cum + c.len ≤ w
    · rw [if_pos h1]
      exact (reaches_tail c cs).trans (ih _ _)
    · rw [if_neg h1]
      by_cases h2 : w < c.len
      · rw [if_pos h2]
        refine reaches_dropN c cs _ ?_
        have hle := endSplit_le (space_left w cum) c
        have : space_left w cum ≤ w := by
          unfold space_left
          rw [if_neg (by omega)]
          omega
        omega
      · rw [if_neg h2]
        exact Reaches.rfl _

theorem fitCum_nil (w cum : Nat) : fitCum w cum [] = some cum := rfl

theorem fitCum_cons (w cum : Nat) (c : Chunk) (cs : List Chunk) :
    fitCum w cum (c :: cs) =
      if cum + c.len ≤ w then fitCum w (cum + c.len) cs else none := rfl

theorem fitCum_le_w (w : Nat) :
    ∀ (l : List Chunk) (cum cum' : Nat), fitCum w cum l = some cum' →
      cum ≤ w → cum' ≤ w := by
  intro l
  induction l with
  | nil => intro cum cum' h hc; cases h; exact hc
  | cons c cs ih =>
    intro cum cum' h hc
    rw [fitCum_cons] at h
    by_cases h1 : cum + c.len ≤ w
    · rw [if_pos h1] at h
      exact ih _ _ h h1
    · rw [if_neg h1] at h
      cases h

theorem lineRun_of_fitCum (w : Nat) :
    ∀ (l : List Chunk) (cum : Nat) (acc : List Chunk) (cum' : Nat),
      fitCum w cum l = some cum' → lineRun w cum acc l = (acc ++ l, []) := by
  intro l
  induction l with
  | nil => intro cum acc cum' h; simp [lineRun_nil]
  | cons c cs ih =>
    intro cum acc cum' h
    rw [fitCum_cons] at h
    rw [lineRun_cons]
    by_cases h1 : cum + c.len ≤ w
    · rw [if_pos h1] at h
      rw [if_pos h1, ih _ _ _ h]
      simp
    · rw [if_neg h1] at h
      cases h

theorem lineRun_rest_nil_fitCum (w : Nat) :
    ∀ (l : List Chunk) (cum : Nat) (acc : List Chunk),
      (lineRun w cum acc l).2 = [] → ∃ cum', fitCum w cum l = some cum' := by
  intro l
  induction l with
  | nil => intro cum acc _; exact ⟨cum, rfl⟩
  | cons c cs ih =>
    intro cum acc h
    rw [lineRun_cons] at h
    by_cases h1 : cum + c.len ≤ w
    · rw [if_pos h1] at h
      rw [fitCum_cons, if_pos h1]
      exact ih _ _ h
    · rw [if_neg h1] at h
      by_cases h2 : w < c.len
      · rw [if_pos h2] at h
        simp at h
      · rw [if_neg h2] at h
        simp at h

theorem lineRun_append_of_fitCum (w : Nat) :
    ∀ (A : List Chunk) (cum : Nat) (acc : List Chunk) (cum' : Nat),
      fitCum w cum A = some cum' →
      ∀ B, lineRun w cum acc (A ++ B) = lineRun w cum' (acc ++ A) B := by
  intro A
  induction A with
  | nil =>
    intro cum acc cum' h B
    cases h
    simp
  | cons c cs ih =>
    intro cum acc cum' h B
    rw [fitCum_cons] at h
    by_cases h1 : cum + c.len ≤ w
    · rw [if_pos h1] at h
      rw [List.cons_append, lineRun_cons, if_pos h1, ih _ _ _ h B]
      simp
    · rw [if_neg h1] at h
      cases h

theorem lineRun_append_of_rest_ne (w : Nat) :
    ∀ (A : List Chunk) (cum : Nat) (acc B : List Chunk),
      (lineRun w cum acc A).2 ≠ [] →
      lineRun w cum acc (A ++ B) =
        ((lineRun w cum acc A).1, (lineRun w cum acc A).2 ++ B) := by
  intro A
  induction A with
  | nil => intro cum acc B h; exact absurd rfl h
  | cons c cs ih =>
    intro cum acc B h
    rw [lineRun_cons] at h
    rw [List.cons_append, lineRun_cons]
    by_cases h1 : cum + c.len ≤ w
    · rw [if_pos h1] at h ⊢
      rw [ih _ _ B h]
      rw [lineRun_cons, if_pos h1]
    · rw [if_neg h1] at h ⊢
      by_cases h2 : w < c.len
      · rw [if_pos h2] at h ⊢
        rw [lineRun_cons, if_neg h1, if_pos h2]
        rfl
      · rw [if_neg h2] at h ⊢
        rw [lineRun_cons, if_neg h1, if_neg h2]
        rfl

/-! ## C2 support: the long-word split point -/

theorem lastHyphenBefore_nil (b : Nat) : lastHyphenBefore [] b = none := by
  cases b <;> rfl

theorem lastHyphenBefore_zero (cs : List Bool) : lastHyphenBefore cs 0 = none := by
  cases cs <;> rfl

theorem lastHyphenBefore_cons (c : Bool) (cs : List Bool) (b : Nat) :
    lastHyphenBefore (c :: cs) (b + 1) =
      (match lastHyphenBefore cs b with
       | some h => some (h + 1)
       | none => if c then some 0 else none) := rfl

/-- The result of `rfind` is a hyphen inside the search window. -/
theorem lastHyphenBefore_spec :
    ∀ (cs : List Bool) (b h : Nat), lastHyphenBefore cs b = some h →
      h < b ∧ cs[h]? = some true := by
  intro cs
  induction cs with
  | nil => intro b h hh; rw [lastHyphenBefore_nil] at hh; cases hh
  | cons c cs ih =>
    intro b h hh
    cases b with
    | zero => rw [lastHyphenBefore_zero] at hh; cases hh
    | succ b =>
      rw [lastHyphenBefore_cons] at hh
      cases hrec : lastHyphenBefore cs b with
      | some h' =>
        rw [hrec] at hh
        cases hh
        have hih := ih b h' hrec
        exact ⟨by omega, by simpa using hih.2⟩
      | none =>
        rw [hrec] at hh
        by_cases hc : c = true
        · rw [if_pos hc] at hh
          cases hh
          exact ⟨Nat.succ_pos b, by simp [hc]⟩
        · rw [if_neg hc] at hh
          cases hh

/-- When `rfind` finds nothing, there is no hyphen in the window. -/
theorem lastHyphenBefore_none :
    ∀ (cs : List Bool) (b : Nat), lastHyphenBefore cs b = none →
      ∀ t, t < b → cs[t]? ≠ some true := by
  intro cs
  induction cs with
  | nil => intro b _ t _ habs; simp at habs
  | cons c cs ih =>
    intro b hh t ht habs
    cases b with
    | zero => omega
    | succ b =>
      rw [lastHyphenBefore_cons] at hh
      cases hrec : lastHyphenBefore cs b with
      | some h' => rw [hrec] at hh; cases hh
      | none =>
        rw [hrec] at hh
        by_cases hc : c = true
        · rw [if_pos hc] at hh; cases hh
        · rw [if_neg hc] at hh
          cases t with
          | zero =>
            simp at habs
            exact hc habs
          | succ t =>
            exact ih b hrec t (by omega) (by simpa using habs)

/-- The result of `rfind` is the last hyphen in the window. -/
theorem lastHyphenBefore_last :
    ∀ (cs : List Bool) (b h : Nat), lastHyphenBefore cs b = some h →
      ∀ t, h < t → t < b → cs[t]? ≠ some true := by
  intro cs
  induction cs with
  | nil => intro b h hh; rw [lastHyphenBefore_nil] at hh; cases hh
  | cons c cs ih =>
    intro b h hh t ht1 ht2
    cases b with
    | zero => rw [lastHyphenBefore_zero] at hh; cases hh
    | succ b =>
      rw [lastHyphenBefore_cons] at hh
      cases t with
      | zero => omega
      | succ t =>
        cases hrec : lastHyphenBefore cs b with
        | some h' =>
          rw [hrec] at hh
          cases hh
          have hih := ih b h' hrec t (by omega) (by omega)
          simpa using hih
        | none =>
          rw [hrec] at hh
          have hnone := lastHyphenBefore_none cs b hrec t (by omega)
          simpa using hnone

/-- The validity test `any(c != '-' for c in chunk[:h])` in terms of
positions. -/
theorem take_any_nonhyphen (cs : List Bool) (h : Nat) :
    (cs.take h).any (fun x => !x) = true ↔
      ∃ q, q < h ∧ cs[q]? = some false := by
  rw [List.any_eq_true]
  constructor
  · rintro ⟨x, hx, hxval⟩
    rcases List.mem_iff_getElem.mp hx with ⟨q, hq, hqval⟩
    have hql : q < h ∧ q < cs.length := by
      rw [List.length_take] at hq
      omega
    refine ⟨q, hql.1, ?_⟩
    rw [List.getElem?_eq_getElem hql.2]
    rw [List.getElem_take] at hqval
    simp only [Bool.not_eq_true'] at hxval
    rw [hqval, hxval]
  · rintro ⟨q, hq, hqval⟩
    have hqlen : q < cs.length := by
      by_contra habs
      rw [List.getElem?_eq_none (by omega)] at hqval
      cases hqval
    have hcs : cs[q] = false := by
      rw [List.getElem?_eq_getElem hqlen] at hqval
      exact Option.some.inj hqval
    refine ⟨false, ?_, rfl⟩
    rw [List.mem_iff_getElem]
    refine ⟨q, by rw [List.length_take]; omega, ?_⟩
    rw [List.getElem_take]
    exact hcs

/-- Key shift property of the split point: starting later in the same chunk
with at least as much room, `_handle_long_word` cuts at or beyond the
earlier cut. -/
theorem endSplit_shift (c : Chunk) (sl1 sl2 j : Nat) (hsl : sl1 ≤ sl2)
    (hj : j ≤ endSplit sl1 c) :
    endSplit sl1 c ≤ j + endSplit sl2 (c.dropN j) := by
  cases c with
  | space n =>
    rw [endSplit_space] at *
    show sl1 ≤ j + endSplit sl2 (Chunk.space (n - j))
    rw [endSplit_space]
    omega
  | word cs =>
    show endSplit sl1 (Chunk.word cs) ≤ j + endSplit sl2 (Chunk.word (cs.drop j))
    rw [endSplit_word sl2]
    cases hm2 : lastHyphenBefore (cs.drop j) sl2 with
    | none =>
      have := endSplit_le sl1 (Chunk.word cs)
      simp only
      omega
    | some h2 =>
      simp only
      by_cases hv2 : 0 < h2 ∧ ((cs.drop j).take h2).any (fun x => !x) = true
      · rw [if_pos hv2]
        -- hyphen of the later window, at absolute position j + h2
        have hspec2 := lastHyphenBefore_spec _ _ _ hm2
        have hhyp2 : cs[j + h2]? = some true := by
          rw [← List.getElem?_drop]
          exact hspec2.2
        have hnonh2 := (take_any_nonhyphen (cs.drop j) h2).mp hv2.2
        rcases hnonh2 with ⟨q', hq', hq'val⟩
        have hq'abs : cs[j + q']? = some false := by
          rw [← List.getElem?_drop]
          exact hq'val
        rw [endSplit_word] at hj ⊢
        cases hm1 : lastHyphenBefore cs sl1 with
        | none =>
          simp only
          -- endSplit sl1 = sl1; no hyphen of cs below sl1
          by_contra habs
          push_neg at habs
          have hp : j + h2 < sl1 := by omega
          exact lastHyphenBefore_none cs sl1 hm1 (j + h2) hp hhyp2
        | some h1 =>
          rw [hm1] at hj
          simp only at hj ⊢
          by_cases hv1 : 0 < h1 ∧ (cs.take h1).any (fun b => !b) = true
          · rw [if_pos hv1] at hj ⊢
            -- valid earlier hyphen: j ≤ h1 + 1
            rcases Nat.lt_or_ge h1 j with hlt | hge
            · -- j = h1 + 1
              omega
            · -- j ≤ h1: the hyphen at h1 appears at h1 - j in the suffix
              have hh1 := lastHyphenBefore_spec _ _ _ hm1
              have hhyp1 : (cs.drop j)[h1 - j]? = some true := by
                rw [List.getElem?_drop]
                rw [show j + (h1 - j) = h1 by omega]
                exact hh1.2
              have hle : h1 - j ≤ h2 := by
                by_contra habs
                push_neg at habs
                exact lastHyphenBefore_last _ _ _ hm2 (h1 - j) habs
                  (by omega) hhyp1
              omega
          · rw [if_neg hv1] at hj ⊢
            -- invalid earlier hyphen: endSplit sl1 = sl1
            by_contra habs
            push_neg at habs
            -- the later hyphen lies at j + h2 < sl1, so it is ≤ h1
            have hp : j + h2 < sl1 := by omega
            have hh1 := lastHyphenBefore_spec _ _ _ hm1
            have hple : j + h2 ≤ h1 := by
              by_contra habs2
              push_neg at habs2
              exact lastHyphenBefore_last _ _ _ hm1 (j + h2) habs2 hp hhyp2
            -- h1 is invalid: h1 = 0 or everything before h1 is a hyphen
            rcases Nat.eq_zero_or_pos h1 with h1z | h1pos
            · -- h1 = 0 forces j = h2 = 0, contradicting 0 < h2
              omega
            · have hall : (cs.take h1).any (fun x => !x) ≠ true := by
                intro hx
                exact hv1 ⟨h1pos, hx⟩
              have : cs[j + q']? = some false := hq'abs
              have hqlt : j + q' < h1 := by omega
              refine hall ?_
              exact (take_any_nonhyphen cs h1).mpr ⟨j + q', hqlt, this⟩
      · rw [if_neg hv2]
        have := endSplit_le sl1 (Chunk.word cs)
        omega

/-- Monotonicity of the split point in the available room. -/
theorem endSplit_mono (c : Chunk) (sl1 sl2 : Nat) (hsl : sl1 ≤ sl2) :
    endSplit sl1 c ≤ endSplit sl2 c := by
  have := endSplit_shift c sl1 sl2 0 hsl (Nat.zero_le _)
  rwa [Chunk.dropN_zero, Nat.zero_add] at this

/-! ## C2 support: one wrap line and the wrap loop -/

theorem wrapLine_nil (w : Nat) (f : Bool) : wrapLine w f [] = ([], []) := rfl

theorem wrapLine_cons (w : Nat) (f : Bool) (c : Chunk) (r : List Chunk) :
    wrapLine w f (c :: r) =
      (dropTrailBlank (lineRun w 0 [] (if (!f && c.isBlank) = true then r else c :: r)).1,
       (lineRun w 0 [] (if (!f && c.isBlank) = true then r else c :: r)).2) := rfl

theorem wrapLine_false_def (w : Nat) (l : List Chunk) :
    wrapLine w false l =
      (dropTrailBlank (lineRun w 0 [] (dropLeadBlank l)).1,
       (lineRun w 0 [] (dropLeadBlank l)).2) := by
  cases l with
  | nil => rfl
  | cons c r =>
    show wrapLine w false (c :: r) = _
    unfold wrapLine dropLeadBlank
    simp only [Bool.not_false, Bool.true_and]

theorem wrapLine_rest_reaches (w : Nat) (hw : 1 ≤ w) (f : Bool) (l : List Chunk) :
    Reaches l (wrapLine w f l).2 := by
  cases l with
  | nil => exact Reaches.rfl _
  | cons c r =>
    rw [wrapLine_cons]
    by_cases hdrop : (!f && c.isBlank) = true
    · rw [if_pos hdrop]
      exact (reaches_tail c r).trans (lineRun_rest_reaches w hw _ _ _)
    · rw [if_neg hdrop]
      exact lineRun_rest_reaches w hw _ _ _

theorem wrapLine_size_lt (w : Nat) (hw : 1 ≤ w) (f : Bool) (l : List Chunk)
    (hl : l ≠ []) : chunksSize (wrapLine w f l).2 < chunksSize l := by
  cases l with
  | nil => exact absurd rfl hl
  | cons c r =>
    rw [wrapLine_cons]
    dsimp only
    by_cases hdrop : (!f && c.isBlank) = true
    · rw [if_pos hdrop]
      have h1 : chunksSize (lineRun w 0 [] r).2 ≤ chunksSize r :=
        (lineRun_rest_reaches w hw r 0 []).size_le
      rw [chunksSize_cons]
      omega
    · rw [if_neg hdrop]
      rw [lineRun_cons]
      by_cases h1 : 0 + c.len ≤ w
      · rw [if_pos h1]
        have h2 : chunksSize (lineRun w (0 + c.len) ([] ++ [c]) r).2 ≤ chunksSize r :=
          (lineRun_rest_reaches w hw r _ _).size_le
        rw [chunksSize_cons]
        omega
      · rw [if_neg h1]
        by_cases h2 : w < c.len
        · rw [if_pos h2]
          have hsl : space_left w 0 = w := by
            unfold space_left
            rw [if_neg (by omega)]
            omega
          have hpos : 1 ≤ endSplit (space_left w 0) c := by
            rw [hsl]; exact endSplit_pos w c hw
          simp only [chunksSize_cons, Chunk.dropN_len]
          omega
        · rw [if_neg h2]
          omega

theorem wrapGo_zero (w : Nat) (f : Bool) (l : List Chunk) :
    wrapGo w 0 f l = [] := by
  cases l <;> rfl

theorem wrapGo_succ_nil (w fuel : Nat) (f : Bool) :
    wrapGo w (fuel + 1) f [] = [] := rfl

theorem wrapGo_succ_cons (w fuel : Nat) (f : Bool) (c : Chunk) (cs : List Chunk) :
    wrapGo w (fuel + 1) f (c :: cs) =
      (if (wrapLine w f (c :: cs)).1.isEmpty then wrapGo w fuel f (wrapLine w f (c :: cs)).2
       else (wrapLine w f (c :: cs)).1 :: wrapGo w fuel false (wrapLine w f (c :: cs)).2) := rfl

theorem wrapGo_congr (w : Nat) (hw : 1 ≤ w) :
    ∀ (n fuel fuel' : Nat) (f : Bool) (l : List Chunk),
      chunksSize l < fuel → chunksSize l < fuel' → chunksSize l ≤ n →
      wrapGo w fuel f l = wrapGo w fuel' f l := by
  intro n
  induction n with
  | zero =>
    intro fuel fuel' f l h1 h2 hn
    have hl : l = [] := chunksSize_eq_zero (Nat.le_zero.mp hn)
    subst hl
    cases fuel with
    | zero => omega
    | succ fuel =>
      cases fuel' with
      | zero => omega
      | succ fuel' => rfl
  | succ n ih =>
    intro fuel fuel' f l h1 h2 hn
    cases l with
    | nil =>
      cases fuel with
      | zero => omega
      | succ fuel =>
        cases fuel' with
        | zero => omega
        | succ fuel' => rfl
    | cons c cs =>
      cases fuel with
      | zero => omega
      | succ fuel =>
        cases fuel' with
        | zero => omega
        | succ fuel' =>
          rw [wrapGo_succ_cons, wrapGo_succ_cons]
          have hlt := wrapLine_size_lt w hw f (c :: cs) (by simp)
          have hrec : wrapGo w fuel f (wrapLine w f (c :: cs)).2 =
              wrapGo w fuel' f (wrapLine w f (c :: cs)).2 :=
            ih fuel fuel' f _ (by omega) (by omega) (by omega)
          have hrec' : wrapGo w fuel false (wrapLine w f (c :: cs)).2 =
              wrapGo w fuel' false (wrapLine w f (c :: cs)).2 :=
            ih fuel fuel' false _ (by omega) (by omega) (by omega)
          rw [hrec, hrec']

theorem wrapFrom_nil (w : Nat) (f : Bool) : wrapFrom w f [] = [] := rfl

theorem wrapFrom_cons (w : Nat) (hw : 1 ≤ w) (f : Bool) (l : List Chunk)
    (hl : l ≠ []) :
    wrapFrom w f l =
      (if (wrapLine w f l).1.isEmpty then wrapFrom w f (wrapLine w f l).2
       else (wrapLine w f l).1 :: wrapFrom w false (wrapLine w f l).2) := by
  cases l with
  | nil => exact absurd rfl hl
  | cons c cs =>
    unfold wrapFrom
    rw [wrapGo_succ_cons]
    have hlt := wrapLine_size_lt w hw f (c :: cs) (by simp)
    have h1 : wrapGo w (chunksSize (c :: cs)) f (wrapLine w f (c :: cs)).2 =
        wrapGo w (chunksSize (wrapLine w f (c :: cs)).2 + 1) f (wrapLine w f (c :: cs)).2 :=
      wrapGo_congr w hw (chunksSize (wrapLine w f (c :: cs)).2) _ _ f _
        (by omega) (by omega) le_rfl
    have h2 : wrapGo w (chunksSize (c :: cs)) false (wrapLine w f (c :: cs)).2 =
        wrapGo w (chunksSize (wrapLine w f (c :: cs)).2 + 1) false (wrapLine w f (c :: cs)).2 :=
      wrapGo_congr w hw (chunksSize (wrapLine w f (c :: cs)).2) _ _ false _
        (by omega) (by omega) le_rfl
    rw [h1, h2]

/-! ## C2 support: invariants along consumption, and helper facts -/

theorem isEmpty_true_iff (l : List Chunk) : l.isEmpty = true ↔ l = [] := by
  cases l <;> simp

/-- Positive chunk lengths are preserved by a consumption step. -/
theorem step_preserves_posLens {a b : List Chunk} (h : Step a b)
    (ha : ∀ c ∈ a, 0 < c.len) : ∀ c ∈ b, 0 < c.len := by
  cases h with
  | whole c r =>
    intro x hx
    exact ha x (List.mem_cons_of_mem c hx)
  | part c r k h1 h2 =>
    intro x hx
    rcases List.mem_cons.mp hx with hx | hx
    · subst hx
      rw [Chunk.dropN_len]
      omega
    · exact ha x (List.mem_cons_of_mem c hx)

theorem Reaches.posLens {a b : List Chunk} (h : Reaches a b)
    (ha : ∀ c ∈ a, 0 < c.len) : ∀ c ∈ b, 0 < c.len := by
  induction h with
  | refl => exact ha
  | tail _ hstep ih => exact step_preserves_posLens hstep ih

theorem dropLeadBlank_nil : dropLeadBlank [] = [] := rfl

theorem dropLeadBlank_cons (c : Chunk) (r : List Chunk) :
    dropLeadBlank (c :: r) = if c.isBlank then r else c :: r := rfl

theorem dropLeadBlank_reaches (l : List Chunk) : Reaches l (dropLeadBlank l) := by
  cases l with
  | nil => exact Reaches.rfl []
  | cons c r =>
    rw [dropLeadBlank_cons]
    by_cases hb : c.isBlank = true
    · rw [if_pos hb]
      exact reaches_tail c r
    · rw [if_neg hb]
      exact Reaches.rfl _

/-- The leading-blank drop is monotone along consumption. -/
theorem reaches_dropLeadBlank {L M : List Chunk} (h : Reaches L M) :
    Reaches (dropLeadBlank L) (dropLeadBlank M) := by
  cases L with
  | nil =>
    rw [reaches_nil_inv h]
    exact Reaches.rfl _
  | cons c cs =>
    rw [dropLeadBlank_cons]
    by_cases hb : c.isBlank = true
    · rw [if_pos hb]
      rcases reaches_cons_inv c cs h with hMeq | ⟨j, hj0, hjlen, hMeq⟩ | hcsM
      · subst hMeq
        rw [dropLeadBlank_cons, if_pos hb]
        exact Reaches.rfl cs
      · subst hMeq
        rw [dropLeadBlank_cons, if_pos (Chunk.isBlank_dropN_of_blank j hb)]
        exact Reaches.rfl cs
      · exact hcsM.trans (dropLeadBlank_reaches M)
    · rw [if_neg hb]
      exact h.trans (dropLeadBlank_reaches M)

/-- The accumulator passes through the line-filling loop as a prefix. -/
theorem lineRun_acc_append (w : Nat) :
    ∀ (l : List Chunk) (cum : Nat) (acc : List Chunk),
      (lineRun w cum acc l).1 = acc ++ (lineRun w cum [] l).1 := by
  intro l
  induction l with
  | nil =>
    intro cum acc
    rw [lineRun_nil, lineRun_nil]
    simp
  | cons c cs ih =>
    intro cum acc
    rw [lineRun_cons, lineRun_cons]
    by_cases h1 : cum + c.len ≤ w
    · rw [if_pos h1, if_pos h1, ih _ (acc ++ [c]), ih _ ([] ++ [c])]
      simp
    · rw [if_neg h1, if_neg h1]
      by_cases h2 : w < c.len
      · rw [if_pos h2, if_pos h2]
        simp
      · rw [if_neg h2, if_neg h2]
        simp

theorem dropTrailBlank_eq (l : List Chunk) :
    dropTrailBlank l = match l.reverse with
      | [] => []
      | c :: t => if c.isBlank then t.reverse else l := rfl

/-- Dropping one trailing blank chunk never empties a line whose first chunk
is a word. -/
theorem dropTrailBlank_ne_nil (d : Chunk) (t : List Chunk)
    (hd : d.isBlank = false) : dropTrailBlank (d :: t) ≠ [] := by
  rw [dropTrailBlank_eq]
  cases htr : (d :: t).reverse with
  | nil =>
    rw [List.reverse_eq_nil_iff] at htr
    cases htr
  | cons x xs =>
    simp only
    by_cases hx : x.isBlank = true
    · rw [if_pos hx]
      intro habs
      have hxs : xs = [] := by rwa [List.reverse_eq_nil_iff] at habs
      subst hxs
      have hl : d :: t = [x] := by
        have h2 := congrArg List.reverse htr
        rwa [List.reverse_reverse] at h2
      have hdx : d = x := (List.cons.injEq d t x []).mp hl |>.1
      rw [hdx, hx] at hd
      cases hd
    · rw [if_neg hx]
      simp

/-- Core monotonicity of the line-filling loop: restarting the loop at a
later consumption state `M` (with a fresh `cur_len`, or at the very same
state with a smaller `cur_len`) consumes at least as far as the original
loop did from `L`. -/
theorem lineRun_fresh_mono (w : Nat) (hw : 1 ≤ w) :
    ∀ (n : Nat) (L M : List Chunk) (cum1 cum2 : Nat) (acc1 acc2 : List Chunk),
      chunksSize L ≤ n → cum1 ≤ w → cum2 ≤ cum1 → (cum2 = 0 ∨ M = L) →
      Reaches L M →
      Reaches ((lineRun w cum1 acc1 L).2) ((lineRun w cum2 acc2 M).2) := by
  intro n
  induction n with
  | zero =>
    intro L M cum1 cum2 acc1 acc2 hn _ _ _ hLM
    have hL : L = [] := chunksSize_eq_zero (Nat.le_zero.mp hn)
    subst hL
    rw [reaches_nil_inv hLM, lineRun_nil, lineRun_nil]
    exact Reaches.rfl []
  | succ n ih =>
    intro L M cum1 cum2 acc1 acc2 hn hc1w hc21 hdisj hLM
    cases L with
    | nil =>
      rw [reaches_nil_inv hLM, lineRun_nil, lineRun_nil]
      exact Reaches.rfl []
    | cons c cs =>
      have hszcs : chunksSize cs ≤ n := by
        rw [chunksSize_cons] at hn
        omega
      rcases reaches_cons_inv c cs hLM with hMeq | ⟨j, hj0, hjlen, hMeq⟩ | hcsM
      · -- the two loops start at the same state
        subst hMeq
        rw [lineRun_cons w cum1 acc1 c cs, lineRun_cons w cum2 acc2 c cs]
        by_cases h1 : cum1 + c.len ≤ w
        · rw [if_pos h1, if_pos (show cum2 + c.len ≤ w by omega)]
          exact ih cs cs _ _ _ _ hszcs h1 (by omega) (Or.inr rfl) (Reaches.rfl cs)
        · rw [if_neg h1]
          by_cases h2 : w < c.len
          · rw [if_pos h2, if_neg (show ¬ (cum2 + c.len ≤ w) by omega), if_pos h2]
            have hsl1 : space_left w cum1 = w - cum1 := by
              unfold space_left
              rw [if_neg (by omega)]
            have hsl2 : space_left w cum2 = w - cum2 := by
              unfold space_left
              rw [if_neg (by omega)]
            have hmono : endSplit (space_left w cum1) c ≤ endSplit (space_left w cum2) c :=
              endSplit_mono c _ _ (by rw [hsl1, hsl2]; omega)
            have hlt2 : endSplit (space_left w cum2) c < c.len := by
              have := endSplit_le (space_left w cum2) c
              omega
            have harg : c.dropN (endSplit (space_left w cum2) c) =
                (c.dropN (endSplit (space_left w cum1) c)).dropN
                  (endSplit (space_left w cum2) c - endSplit (space_left w cum1) c) := by
              rw [Chunk.dropN_dropN]
              congr 1
              omega
            rw [harg]
            exact reaches_dropN _ cs _ (by rw [Chunk.dropN_len]; omega)
          · rw [if_neg h2]
            by_cases h1' : cum2 + c.len ≤ w
            · rw [if_pos h1']
              exact (reaches_tail c cs).trans (lineRun_rest_reaches w hw cs _ _)
            · rw [if_neg h1', if_neg h2]
              exact Reaches.rfl _
      · -- M is a partial slice of the head chunk over the same tail
        rcases hdisj with hc20 | hML
        · subst hc20
          subst hMeq
          rw [lineRun_cons w cum1 acc1 c cs, lineRun_cons w 0 acc2 (c.dropN j) cs]
          by_cases h1 : cum1 + c.len ≤ w
          · rw [if_pos h1,
                if_pos (show 0 + (c.dropN j).len ≤ w by rw [Chunk.dropN_len]; omega)]
            exact ih cs cs _ _ _ _ hszcs h1
              (by rw [Chunk.dropN_len]; omega) (Or.inr rfl) (Reaches.rfl cs)
          · rw [if_neg h1]
            by_cases h2 : w < c.len
            · rw [if_pos h2]
              by_cases hfit2 : 0 + (c.dropN j).len ≤ w
              · rw [if_pos hfit2]
                exact (reaches_tail _ cs).trans (lineRun_rest_reaches w hw cs _ _)
              · rw [if_neg hfit2]
                by_cases h2' : w < (c.dropN j).len
                · rw [if_pos h2']
                  have hsl1 : space_left w cum1 = w - cum1 := by
                    unfold space_left
                    rw [if_neg (by omega)]
                  have hsl2 : space_left w 0 = w := by
                    unfold space_left
                    rw [if_neg (by omega)]
                    omega
                  have he2le : endSplit (space_left w 0) (c.dropN j) ≤ w := by
                    have := endSplit_le (space_left w 0) (c.dropN j)
                    omega
                  have hdlen : (c.dropN j).len = c.len - j := Chunk.dropN_len c j
                  by_cases hje : j ≤ endSplit (space_left w cum1) c
                  · have hshift := endSplit_shift c (space_left w cum1) (space_left w 0) j
                      (by rw [hsl1, hsl2]; omega) hje
                    have harg : (c.dropN j).dropN (endSplit (space_left w 0) (c.dropN j)) =
                        (c.dropN (endSplit (space_left w cum1) c)).dropN
                          (j + endSplit (space_left w 0) (c.dropN j) -
                            endSplit (space_left w cum1) c) := by
                      rw [Chunk.dropN_dropN, Chunk.dropN_dropN]
                      congr 1
                      omega
                    rw [harg]
                    refine reaches_dropN _ cs _ ?_
                    rw [Chunk.dropN_len]
                    omega
                  · have hjgt : endSplit (space_left w cum1) c < j := by omega
                    have harg : c.dropN j =
                        (c.dropN (endSplit (space_left w cum1) c)).dropN
                          (j - endSplit (space_left w cum1) c) := by
                      rw [Chunk.dropN_dropN]
                      congr 1
                      omega
                    have hstep1 : Reaches (c.dropN (endSplit (space_left w cum1) c) :: cs)
                        (c.dropN j :: cs) := by
                      rw [harg]
                      refine reaches_dropN _ cs _ ?_
                      rw [Chunk.dropN_len]
                      omega
                    exact hstep1.trans
                      (reaches_dropN (c.dropN j) cs (endSplit (space_left w 0) (c.dropN j))
                        (by omega))
                · exfalso
                  rw [Chunk.dropN_len] at hfit2 h2'
                  omega
            · rw [if_neg h2]
              have hMre : Reaches (c.dropN j :: cs)
                  ((lineRun w 0 acc2 (c.dropN j :: cs)).2) :=
                lineRun_rest_reaches w hw _ _ _
              rw [lineRun_cons w 0 acc2 (c.dropN j) cs] at hMre
              exact (reaches_dropN c cs j (by omega)).trans hMre
        · exfalso
          rw [hML] at hMeq
          have hhd : c = c.dropN j := ((List.cons.injEq c cs (c.dropN j) cs).mp hMeq).1
          have hlen := congrArg Chunk.len hhd
          rw [Chunk.dropN_len] at hlen
          omega
      · -- M lies at or past the tail
        rw [lineRun_cons w cum1 acc1 c cs]
        have hc20 : cum2 = 0 := by
          rcases hdisj with hc20 | hML
          · exact hc20
          · exfalso
            rw [hML] at hcsM
            have h1 := hcsM.size_le
            rw [chunksSize_cons] at h1
            omega
        by_cases h1 : cum1 + c.len ≤ w
        · rw [if_pos h1]
          exact ih cs M _ cum2 _ acc2 hszcs h1 (by omega) (Or.inl hc20) hcsM
        · rw [if_neg h1]
          by_cases h2 : w < c.len
          · rw [if_pos h2]
            exact ((reaches_tail _ cs).trans hcsM).trans
              (lineRun_rest_reaches w hw M cum2 acc2)
          · rw [if_neg h2]
            exact ((reaches_tail c cs).trans hcsM).trans
              (lineRun_rest_reaches w hw M cum2 acc2)

/-- A line filled from a chunk list headed by a word is non-empty even after
the trailing-blank drop. -/
theorem lineRun_line_ne (w : Nat) (hw : 1 ≤ w) (d : Chunk) (ds : List Chunk)
    (hd : d.isBlank = false) :
    dropTrailBlank (lineRun w 0 [] (d :: ds)).1 ≠ [] := by
  rw [lineRun_cons]
  by_cases h1 : 0 + d.len ≤ w
  · rw [if_pos h1]
    rw [lineRun_acc_append w ds (0 + d.len) ([] ++ [d])]
    rw [show (([] ++ [d]) ++ (lineRun w (0 + d.len) [] ds).1) =
      d :: (lineRun w (0 + d.len) [] ds).1 by simp]
    exact dropTrailBlank_ne_nil d _ hd
  · rw [if_neg h1]
    by_cases h2 : w < d.len
    · rw [if_pos h2]
      have hpos : 1 ≤ endSplit (space_left w 0) d := by
        refine endSplit_pos _ d ?_
        unfold space_left
        rw [if_neg (by omega)]
        omega
      have hne : (d.takeN (endSplit (space_left w 0) d)).isBlank = false := by
        cases d with
        | space n => simp [Chunk.isBlank] at hd
        | word bs =>
          have hbs : bs.take (endSplit (space_left w 0) (Chunk.word bs)) ≠ [] := by
            intro habs
            have hlen := congrArg List.length habs
            rw [List.length_take] at hlen
            simp only [List.length_nil] at hlen
            have hwlen : w < bs.length := h2
            omega
          show (Chunk.word (bs.take (endSplit (space_left w 0) (Chunk.word bs)))).isBlank = false
          cases htk : bs.take (endSplit (space_left w 0) (Chunk.word bs)) with
          | nil => exact absurd htk hbs
          | cons y ys => rfl
      dsimp only
      rw [List.nil_append]
      exact dropTrailBlank_ne_nil _ [] hne
    · exact absurd (show 0 + d.len ≤ w by omega) h1

theorem wrapLine_space (w n : Nat) : wrapLine w false [Chunk.space n] = ([], []) := rfl

/-- Under the well-formedness invariants the only chunk lists whose wrap
iteration yields an empty line are the empty list and a lone whitespace
chunk. -/
theorem wrapLine_empty_char (w : Nat) (hw : 1 ≤ w) (l : List Chunk)
    (hna : NoAdjBlank l) (hpl : ∀ c ∈ l, 0 < c.len)
    (he : (wrapLine w false l).1 = []) :
    l = [] ∨ ∃ n, l = [Chunk.space n] := by
  cases l with
  | nil => exact Or.inl rfl
  | cons c cs =>
    rw [wrapLine_false_def] at he
    dsimp only at he
    rw [dropLeadBlank_cons] at he
    by_cases hb : c.isBlank = true
    · rw [if_pos hb] at he
      cases cs with
      | nil =>
        refine Or.inr ?_
        cases c with
        | space n => exact ⟨n, rfl⟩
        | word bs =>
          have h0 : 0 < (Chunk.word bs).len := hpl _ (by simp)
          simp only [Chunk.isBlank, List.isEmpty_iff] at hb
          subst hb
          simp [Chunk.len] at h0
      | cons d ds =>
        have hdb : d.isBlank = false := by
          have hch : c.isBlank = false ∨ d.isBlank = false :=
            (List.chain'_cons.mp hna).1
          rcases hch with h | h
          · rw [hb] at h; cases h
          · exact h
        exact absurd he (lineRun_line_ne w hw d ds hdb)
    · rw [if_neg hb] at he
      have hcb : c.isBlank = false := by
        cases hcb : c.isBlank
        · rfl
        · exact absurd hcb hb
      exact absurd he (lineRun_line_ne w hw c cs hcb)

/-- Monotonicity of the wrap-line count: the wrap of a later consumption
state produces at most as many lines. -/
theorem wrapFrom_mono (w : Nat) (hw : 1 ≤ w) :
    ∀ (n : Nat) (L M : List Chunk), chunksSize L ≤ n →
      NoAdjBlank L → (∀ c ∈ L, 0 < c.len) → Reaches L M →
      (wrapFrom w false M).length ≤ (wrapFrom w false L).length := by
  intro n
  induction n with
  | zero =>
    intro L M hn _ _ hLM
    have hL : L = [] := chunksSize_eq_zero (Nat.le_zero.mp hn)
    subst hL
    rw [reaches_nil_inv hLM]
  | succ n ih =>
    intro L M hn hna hpl hLM
    cases L with
    | nil =>
      rw [reaches_nil_inv hLM]
    | cons c cs =>
      cases M with
      | nil =>
        rw [wrapFrom_nil]
        exact Nat.zero_le _
      | cons m ms =>
        have hresR : Reaches ((wrapLine w false (c :: cs)).2)
            ((wrapLine w false (m :: ms)).2) := by
          rw [wrapLine_false_def, wrapLine_false_def]
          exact lineRun_fresh_mono w hw (chunksSize (dropLeadBlank (c :: cs)))
            (dropLeadBlank (c :: cs)) (dropLeadBlank (m :: ms)) 0 0 [] []
            le_rfl (Nat.zero_le w) le_rfl (Or.inl rfl)
            (reaches_dropLeadBlank hLM)
        have hstepL : Reaches (c :: cs) ((wrapLine w false (c :: cs)).2) :=
          wrapLine_rest_reaches w hw false _
        have hsz : chunksSize ((wrapLine w false (c :: cs)).2) ≤ n := by
          have := wrapLine_size_lt w hw false (c :: cs) (by simp)
          omega
        have hnaL : NoAdjBlank ((wrapLine w false (c :: cs)).2) := hstepL.noAdjBlank hna
        have hplL : ∀ x ∈ (wrapLine w false (c :: cs)).2, 0 < x.len := hstepL.posLens hpl
        have hih := ih _ _ hsz hnaL hplL hresR
        rw [wrapFrom_cons w hw false (c :: cs) (by simp),
            wrapFrom_cons w hw false (m :: ms) (by simp)]
        by_cases hLe : (wrapLine w false (c :: cs)).1.isEmpty = true
        · rw [if_pos hLe]
          have hchar := wrapLine_empty_char w hw (c :: cs) hna hpl
            ((isEmpty_true_iff _).mp hLe)
          rcases hchar with habs | ⟨k, hk⟩
          · exact absurd habs (by simp)
          · rw [hk] at hLM
            have hMsp : ∃ k2, m :: ms = [Chunk.space k2] := by
              rcases reaches_cons_inv (Chunk.space k) [] hLM with hMeq | ⟨j, hj0, hjlen, hMeq⟩ | hnilM
              · exact ⟨k, hMeq⟩
              · exact ⟨k - j, hMeq⟩
              · exact absurd (reaches_nil_inv hnilM) (by simp)
            rcases hMsp with ⟨k2, hk2⟩
            have hMe : (wrapLine w false (m :: ms)).1.isEmpty = true := by
              rw [hk2, wrapLine_space]
              rfl
            rw [if_pos hMe]
            exact hih
        · rw [if_neg hLe]
          by_cases hMe : (wrapLine w false (m :: ms)).1.isEmpty = true
          · rw [if_pos hMe]
            simp only [List.length_cons]
            omega
          · rw [if_neg hMe]
            simp only [List.length_cons]
            omega

theorem head_all_nonblank (c : Chunk) (cs : List Chunk)
    (h : (c :: cs).head?.all (fun x => !x.isBlank) = true) : c.isBlank = false := by
  simp only [List.head?_cons, Option.all_some] at h
  cases hb : c.isBlank
  · rfl
  · rw [hb] at h
    simp at h

/-- A leading whitespace chunk before a word is dropped without affecting
the wrapped lines (it is removed by the leading-blank drop of the first
iteration). -/
theorem wrapFrom_space_cons (w : Nat) (hw : 1 ≤ w) (k : Nat) (B : List Chunk)
    (hB : B.head?.all (fun x => !x.isBlank) = true) :
    wrapFrom w false (Chunk.space k :: B) = wrapFrom w false B := by
  cases B with
  | nil =>
    rw [wrapFrom_cons w hw false [Chunk.space k] (by simp)]
    rw [show (wrapLine w false [Chunk.space k]) = ([], []) from wrapLine_space w k]
    simp [wrapFrom_nil]
  | cons b bs =>
    have hbb : b.isBlank = false := head_all_nonblank b bs hB
    have hL : wrapLine w false (Chunk.space k :: b :: bs) = wrapLine w false (b :: bs) := by
      rw [wrapLine_cons, wrapLine_cons]
      rw [if_pos (show (!false && (Chunk.space k).isBlank) = true from rfl),
          if_neg (show ¬ ((!false && b.isBlank) = true) by simp [hbb])]
    rw [wrapFrom_cons w hw false (Chunk.space k :: b :: bs) (by simp),
        wrapFrom_cons w hw false (b :: bs) (by simp), hL]

/-- On a chunk list headed by a word the `not lines` flag is irrelevant:
the wrap with the first-line flag set equals the wrap without it. -/
theorem wrapFrom_true_eq (w : Nat) (hw : 1 ≤ w) (l : List Chunk)
    (hh : l.head?.all (fun x => !x.isBlank) = true) :
    wrapFrom w true l = wrapFrom w false l := by
  cases l with
  | nil => rfl
  | cons c cs =>
    have hcb : c.isBlank = false := head_all_nonblank c cs hh
    have hL : wrapLine w true (c :: cs) = wrapLine w false (c :: cs) := by
      rw [wrapLine_cons, wrapLine_cons]
      rw [if_neg (show ¬ ((!true && c.isBlank) = true) by simp),
          if_neg (show ¬ ((!false && c.isBlank) = true) by simp [hcb])]
    rw [wrapFrom_cons w hw true (c :: cs) (by simp),
        wrapFrom_cons w hw false (c :: cs) (by simp), hL]
    by_cases hE : (wrapLine w false (c :: cs)).1.isEmpty = true
    · exfalso
      have hln := lineRun_line_ne w hw c cs hcb
      rw [wrapLine_false_def] at hE
      dsimp only at hE
      rw [dropLeadBlank_cons, if_neg (by simp [hcb])] at hE
      exact hln ((isEmpty_true_iff _).mp hE)
    · rw [if_neg hE, if_neg hE]

/-- A non-empty word-headed chunk list wraps to at least one line. -/
theorem wrapFrom_pos (w : Nat) (hw : 1 ≤ w) (l : List Chunk) (hl : l ≠ [])
    (hh : l.head?.all (fun x => !x.isBlank) = true) :
    1 ≤ (wrapFrom w true l).length := by
  cases l with
  | nil => exact absurd rfl hl
  | cons c cs =>
    have hcb : c.isBlank = false := head_all_nonblank c cs hh
    rw [wrapFrom_cons w hw true (c :: cs) (by simp)]
    have hne : ¬ ((wrapLine w true (c :: cs)).1.isEmpty = true) := by
      intro hE
      have hln := lineRun_line_ne w hw c cs hcb
      rw [wrapLine_cons, if_neg (show ¬ ((!true && c.isBlank) = true) by simp)] at hE
      dsimp only at hE
      exact hln ((isEmpty_true_iff _).mp hE)
    rw [if_neg hne]
    simp

/-- Subadditivity of the wrap-line count across a single joining space: the
wrap of `A ++ ' ' ++ B` has at most as many lines as the wraps of `A` and
`B` together. -/
theorem wrapFrom_append_le (w : Nat) (hw : 1 ≤ w) :
    ∀ (n : Nat) (A : List Chunk), chunksSize A ≤ n →
      NoAdjBlank A → (∀ c ∈ A, 0 < c.len) →
      A.getLast?.all (fun x => !x.isBlank) = true →
      ∀ (B : List Chunk), B ≠ [] → B.head?.all (fun x => !x.isBlank) = true →
      NoAdjBlank B → (∀ c ∈ B, 0 < c.len) →
      (wrapFrom w false (A ++ Chunk.space 1 :: B)).length ≤
        (wrapFrom w false A).length + (wrapFrom w false B).length := by
  intro n
  induction n with
  | zero =>
    intro A hn _ _ _ B hB hBh _ _
    have hA : A = [] := chunksSize_eq_zero (Nat.le_zero.mp hn)
    subst hA
    rw [List.nil_append, wrapFrom_space_cons w hw 1 B hBh, wrapFrom_nil]
    simp
  | succ n ih =>
    intro A hn hna hpl hlast B hB hBh hnaB hplB
    cases A with
    | nil =>
      rw [List.nil_append, wrapFrom_space_cons w hw 1 B hBh, wrapFrom_nil]
      simp
    | cons c cs =>
      have hdlb : dropLeadBlank ((c :: cs) ++ Chunk.space 1 :: B) =
          dropLeadBlank (c :: cs) ++ Chunk.space 1 :: B := by
        rw [List.cons_append, dropLeadBlank_cons, dropLeadBlank_cons]
        by_cases hb : c.isBlank = true
        · rw [if_pos hb, if_pos hb]
        · rw [if_neg hb, if_neg hb, List.cons_append]
      have hdlbA : ∃ a0 ar, dropLeadBlank (c :: cs) = a0 :: ar ∧ a0.isBlank = false := by
        rw [dropLeadBlank_cons]
        by_cases hb : c.isBlank = true
        · rw [if_pos hb]
          cases cs with
          | nil =>
            exfalso
            simp only [List.getLast?_singleton, Option.all_some] at hlast
            rw [hb] at hlast
            simp at hlast
          | cons d ds =>
            refine ⟨d, ds, rfl, ?_⟩
            rcases (List.chain'_cons.mp hna).1 with h | h
            · rw [hb] at h
              cases h
            · exact h
        · rw [if_neg hb]
          refine ⟨c, cs, rfl, ?_⟩
          cases hcb : c.isBlank
          · rfl
          · exact absurd hcb hb
      obtain ⟨a0, ar, hA0, ha0⟩ := hdlbA
      by_cases hrest : (lineRun w 0 [] (dropLeadBlank (c :: cs))).2 = []
      · -- the whole of A fits on the first line
        rcases lineRun_rest_nil_fitCum w (dropLeadBlank (c :: cs)) 0 [] hrest with ⟨cumA, hcums⟩
        have hcumw : cumA ≤ w :=
          fitCum_le_w w (dropLeadBlank (c :: cs)) 0 cumA hcums (Nat.zero_le w)
        have hcomb : lineRun w 0 [] (dropLeadBlank (c :: cs) ++ Chunk.space 1 :: B) =
            lineRun w cumA (dropLeadBlank (c :: cs)) (Chunk.space 1 :: B) := by
          have h := lineRun_append_of_fitCum w (dropLeadBlank (c :: cs)) 0 [] cumA hcums
            (Chunk.space 1 :: B)
          rwa [List.nil_append] at h
        have hlineA : (wrapLine w false (c :: cs)).1 =
            dropTrailBlank (dropLeadBlank (c :: cs)) := by
          rw [wrapLine_false_def]
          dsimp only
          rw [lineRun_of_fitCum w (dropLeadBlank (c :: cs)) 0 [] cumA hcums]
          dsimp only
          rw [List.nil_append]
        have hrest2 : (wrapLine w false (c :: cs)).2 = [] := by
          rw [wrapLine_false_def]
          exact hrest
        have hEA : ¬ ((wrapLine w false (c :: cs)).1.isEmpty = true) := by
          rw [hlineA, hA0]
          intro hE
          exact dropTrailBlank_ne_nil a0 ar ha0 ((isEmpty_true_iff _).mp hE)
        by_cases hsp : cumA + 1 ≤ w
        · -- the joining space fits: the first line runs on into B
          have hcomb2 : lineRun w cumA (dropLeadBlank (c :: cs)) (Chunk.space 1 :: B) =
              lineRun w (cumA + 1) (dropLeadBlank (c :: cs) ++ [Chunk.space 1]) B := by
            rw [lineRun_cons]
            rw [show (Chunk.space 1).len = 1 from rfl]
            rw [if_pos hsp]
          have hwL : wrapLine w false ((c :: cs) ++ Chunk.space 1 :: B) =
              (dropTrailBlank
                 (lineRun w (cumA + 1) (dropLeadBlank (c :: cs) ++ [Chunk.space 1]) B).1,
               (lineRun w (cumA + 1) (dropLeadBlank (c :: cs) ++ [Chunk.space 1]) B).2) := by
            rw [wrapLine_false_def, hdlb, hcomb, hcomb2]
          have hlineL : ¬ ((wrapLine w false ((c :: cs) ++ Chunk.space 1 :: B)).1.isEmpty
              = true) := by
            rw [hwL]
            dsimp only
            rw [lineRun_acc_append w B (cumA + 1) (dropLeadBlank (c :: cs) ++ [Chunk.space 1])]
            rw [hA0, List.cons_append, List.cons_append]
            intro hE
            exact dropTrailBlank_ne_nil a0 _ ha0 ((isEmpty_true_iff _).mp hE)
          have hmono := wrapFrom_mono w hw (chunksSize B) B
            ((lineRun w (cumA + 1) (dropLeadBlank (c :: cs) ++ [Chunk.space 1]) B).2)
            le_rfl hnaB hplB
            (lineRun_rest_reaches w hw B (cumA + 1) (dropLeadBlank (c :: cs) ++ [Chunk.space 1]))
          rw [wrapFrom_cons w hw false ((c :: cs) ++ Chunk.space 1 :: B) (by simp),
              wrapFrom_cons w hw false (c :: cs) (by simp)]
          rw [if_neg hlineL, if_neg hEA, hrest2, wrapFrom_nil]
          rw [hwL]
          dsimp only
          simp only [List.length_cons, List.length_nil]
          omega
        · -- the joining space does not fit: the first line is exactly A
          have hcomb2 : lineRun w cumA (dropLeadBlank (c :: cs)) (Chunk.space 1 :: B) =
              (dropLeadBlank (c :: cs), Chunk.space 1 :: B) := by
            rw [lineRun_cons]
            rw [show (Chunk.space 1).len = 1 from rfl]
            rw [if_neg hsp, if_neg (show ¬ (w < 1) by omega)]
          have hwL : wrapLine w false ((c :: cs) ++ Chunk.space 1 :: B) =
              (dropTrailBlank (dropLeadBlank (c :: cs)), Chunk.space 1 :: B) := by
            rw [wrapLine_false_def, hdlb, hcomb, hcomb2]
          have hlineL : ¬ ((wrapLine w false ((c :: cs) ++ Chunk.space 1 :: B)).1.isEmpty
              = true) := by
            rw [hwL]
            dsimp only
            rw [hA0]
            intro hE
            exact dropTrailBlank_ne_nil a0 ar ha0 ((isEmpty_true_iff _).mp hE)
          rw [wrapFrom_cons w hw false ((c :: cs) ++ Chunk.space 1 :: B) (by simp),
              wrapFrom_cons w hw false (c :: cs) (by simp)]
          rw [if_neg hlineL, if_neg hEA, hrest2, wrapFrom_nil]
          rw [hwL]
          dsimp only
          rw [wrapFrom_space_cons w hw 1 B hBh]
          simp only [List.length_cons, List.length_nil]
          omega
      · -- the first line stops inside A
        have hsplit := lineRun_append_of_rest_ne w (dropLeadBlank (c :: cs)) 0 []
          (Chunk.space 1 :: B) hrest
        have hwL : wrapLine w false ((c :: cs) ++ Chunk.space 1 :: B) =
            ((wrapLine w false (c :: cs)).1,
             (wrapLine w false (c :: cs)).2 ++ Chunk.space 1 :: B) := by
          rw [wrapLine_false_def w ((c :: cs) ++ Chunk.space 1 :: B), hdlb, hsplit,
              wrapLine_false_def w (c :: cs)]
        have hrest2 : (wrapLine w false (c :: cs)).2 ≠ [] := by
          rw [wrapLine_false_def]
          exact hrest
        have hstepA : Reaches (c :: cs) ((wrapLine w false (c :: cs)).2) :=
          wrapLine_rest_reaches w hw false _
        have hsz : chunksSize ((wrapLine w false (c :: cs)).2) ≤ n := by
          have := wrapLine_size_lt w hw false (c :: cs) (by simp)
          omega
        have hihres := ih ((wrapLine w false (c :: cs)).2) hsz
          (hstepA.noAdjBlank hna) (hstepA.posLens hpl)
          (hstepA.lastBlank hlast hrest2) B hB hBh hnaB hplB
        rw [wrapFrom_cons w hw false ((c :: cs) ++ Chunk.space 1 :: B) (by simp),
            wrapFrom_cons w hw false (c :: cs) (by simp)]
        rw [hwL]
        dsimp only
        by_cases hE : (wrapLine w false (c :: cs)).1.isEmpty = true
        · rw [if_pos hE, if_pos hE]
          omega
        · rw [if_neg hE, if_neg hE]
          simp only [List.length_cons]
          omega

theorem segJoin_singleton (s : Sentence) : segJoin [s] = s := rfl

theorem segJoin_cons_cons (s t : Sentence) (ts : List Sentence) :
    segJoin (s :: t :: ts) = s ++ Chunk.space 1 :: segJoin (t :: ts) := rfl

/-- Joining well-formed sentences with single spaces yields a well-formed
chunk list. -/
theorem segJoin_wordful : ∀ (seg : List Sentence), seg ≠ [] →
    (∀ s ∈ seg, Wordful s) → Wordful (segJoin seg) := by
  intro seg
  induction seg with
  | nil =>
    intro h _
    exact absurd rfl h
  | cons s ss ih =>
    intro _ hall
    cases ss with
    | nil => exact hall s (by simp)
    | cons t ts =>
      have hs : Wordful s := hall s (by simp)
      have hJ : Wordful (segJoin (t :: ts)) :=
        ih (by simp) (fun x hx => hall x (List.mem_cons_of_mem s hx))
      obtain ⟨hs1, hs2, hs3, hs4, hs5⟩ := hs
      obtain ⟨hJ1, hJ2, hJ3, hJ4, hJ5⟩ := hJ
      rw [segJoin_cons_cons]
      refine ⟨?_, ?_, ?_, ?_, ?_⟩
      · intro habs
        rcases List.append_eq_nil.mp habs with ⟨_, h2⟩
        cases h2
      · show List.Chain' (fun a b => a.isBlank = false ∨ b.isBlank = false)
          (s ++ Chunk.space 1 :: segJoin (t :: ts))
        rw [List.chain'_append]
        refine ⟨hs2, ?_, ?_⟩
        · rw [List.chain'_cons']
          refine ⟨?_, hJ2⟩
          intro y hy
          right
          rw [Option.mem_def] at hy
          rw [hy] at hJ4
          simp only [Option.all_some] at hJ4
          simpa using hJ4
        · intro x hx y _
          left
          rw [Option.mem_def] at hx
          rw [hx] at hs5
          simp only [Option.all_some] at hs5
          simpa using hs5
      · intro x hx
        rcases List.mem_append.mp hx with h | h
        · exact hs3 x h
        · rcases List.mem_cons.mp h with h | h
          · subst h
            decide
          · exact hJ3 x h
      · cases s with
        | nil => exact absurd rfl hs1
        | cons a as =>
          rw [List.cons_append]
          simpa using hs4
      · rw [List.getLast?_append_of_ne_nil s (by simp)]
        cases hJys : segJoin (t :: ts) with
        | nil => exact absurd hJys hJ1
        | cons j js =>
          rw [hJys] at hJ5
          rw [List.getLast?_cons_cons]
          exact hJ5

/-- Subadditivity of the wrap at the joining space, in terms of the
first-line flag used by `textwrap.wrap`. -/
theorem wrapFrom_join_le (w : Nat) (hw : 1 ≤ w) (A B : List Chunk)
    (hA : Wordful A) (hB : Wordful B) :
    (wrapFrom w true (A ++ Chunk.space 1 :: B)).length ≤
      (wrapFrom w true A).length + (wrapFrom w true B).length := by
  obtain ⟨hA1, hA2, hA3, hA4, hA5⟩ := hA
  obtain ⟨hB1, hB2, hB3, hB4, hB5⟩ := hB
  have hhead : (A ++ Chunk.space 1 :: B).head?.all (fun x => !x.isBlank) = true := by
    cases A with
    | nil => exact absurd rfl hA1
    | cons a as =>
      rw [List.cons_append]
      simpa using hA4
  rw [wrapFrom_true_eq w hw A hA4, wrapFrom_true_eq w hw B hB4,
      wrapFrom_true_eq w hw (A ++ Chunk.space 1 :: B) hhead]
  exact wrapFrom_append_le w hw (chunksSize A) A le_rfl hA2 hA3 hA5 B hB1 hB4 hB2 hB3

theorem fill_line_count_eq_of_pos (w : Nat) (l : List Chunk)
    (h : 1 ≤ (textwrap_wrap w l).length) :
    fill_line_count w l = (textwrap_wrap w l).length := by
  unfold fill_line_count
  cases hlen : (textwrap_wrap w l).length with
  | zero => exact absurd hlen (by omega)
  | succ k => rfl

/-- For a well-formed chunk list the wrapped line count of `fill` is the
number of wrapped lines. -/
theorem sentence_lines_eq (s : Sentence) (hs : Wordful s) :
    sentence_lines s = (wrapFrom 35 true s).length := by
  obtain ⟨h1, -, -, h4, -⟩ := hs
  have hpos : 1 ≤ (wrapFrom 35 true s).length := wrapFrom_pos 35 (by omega) s h1 h4
  have hpos' : 1 ≤ (textwrap_wrap 35 s).length := hpos
  show fill_line_count 35 s = (wrapFrom 35 true s).length
  rw [fill_line_count_eq_of_pos 35 s hpos']
  rfl

/-- Telescoped subadditivity over a whole segment: the wrap of the joined
segment has at most as many lines as the sentences' individual `fill` line
counts add up to. -/
theorem segJoin_lines_le :
    ∀ (seg : List Sentence), seg ≠ [] → (∀ s ∈ seg, Wordful s) →
      (wrapFrom 35 true (segJoin seg)).length ≤ (seg.map sentence_lines).sum := by
  intro seg
  induction seg with
  | nil =>
    intro h _
    exact absurd rfl h
  | cons s ss ih =>
    intro _ hall
    have hs : Wordful s := hall s (by simp)
    cases ss with
    | nil =>
      rw [segJoin_singleton, List.map_cons, List.map_nil, List.sum_cons, List.sum_nil]
      rw [sentence_lines_eq s hs]
      omega
    | cons t ts =>
      have hallJ : ∀ x ∈ t :: ts, Wordful x :=
        fun x hx => hall x (List.mem_cons_of_mem s hx)
      have hJ : Wordful (segJoin (t :: ts)) := segJoin_wordful (t :: ts) (by simp) hallJ
      have hsub := wrapFrom_join_le 35 (by omega) s (segJoin (t :: ts)) hs hJ
      have hih := ih (by simp) hallJ
      have hse := sentence_lines_eq s hs
      rw [segJoin_cons_cons, List.map_cons, List.sum_cons]
      omega

/-- The greedy sentence loop keeps the running line count below the budget
whenever the current segment holds at least two sentences, so every emitted
multi-sentence segment fits the budget. -/
theorem segGo_lines_le (m : Nat) :
    ∀ (l : List Sentence) (cur : List Sentence) (cl : Nat),
      cl = (cur.map sentence_lines).sum →
      (2 ≤ cur.length → cl ≤ m) →
      ∀ seg ∈ segGo m l cur cl, 2 ≤ seg.length → (seg.map sentence_lines).sum ≤ m := by
  intro l
  induction l with
  | nil =>
    intro cur cl hcl hinv seg hseg h2
    unfold segGo at hseg
    by_cases hc : cur.isEmpty
    · rw [if_pos hc] at hseg
      simp at hseg
    · rw [if_neg hc] at hseg
      have hseq : seg = cur := by simpa using hseg
      subst hseq
      rw [← hcl]
      exact hinv h2
  | cons a rest ih =>
    intro cur cl hcl hinv seg hseg h2
    unfold segGo at hseg
    by_cases hcond : m < cl + sentence_lines a ∧ cur ≠ []
    · rw [if_pos hcond] at hseg
      rcases List.mem_cons.mp hseg with hseq | hmem
      · subst hseq
        rw [← hcl]
        exact hinv h2
      · refine ih [a] (sentence_lines a) (by simp) ?_ seg hmem h2
        intro hlen
        rw [List.length_singleton] at hlen
        omega
    · rw [if_neg hcond] at hseg
      refine ih (cur ++ [a]) (cl + sentence_lines a) ?_ ?_ seg hseg h2
      · rw [List.map_append, List.sum_append, hcl]
        simp
      · intro hlen
        by_cases hcur : cur = []
        · subst hcur
          simp at hlen
        · rcases not_and_or.mp hcond with h | h
          · omega
          · exact absurd (not_not.mp h) hcur

/-- C2: for every input whose sentences are well-formed chunk lists (the
shape `nltk.sent_tokenize` output always has: non-empty, single-chunk
whitespace runs, word chunks at both ends), every caption segment produced
by `_split_text_into_segments` that contains two or more sentences has a
wrapped line count of at most the configured maximum of 4 at the fixed
35-character width (`len(textwrap.fill(text, 35).split('\n'))` semantics);
equivalently only a single-sentence segment — the documented
single-long-sentence exception — can exceed the 4-line budget, because the
greedy accumulation closes the current segment before adding a sentence
whose addition would exceed the budget. -/
theorem segmenter_max_lines (sentences : List Sentence)
    (hws : ∀ s ∈ sentences, Wordful s) :
    ∀ seg ∈ split_text_into_segments sentences, 2 ≤ seg.length →
      fill_line_count 35 (segJoin seg) ≤ 4 := by
  intro seg hseg h2
  have hsound := split_segments_sound sentences 4 seg hseg
  have hwf : ∀ s ∈ seg, Wordful s := fun s hs => hws s (hsound.2 s hs)
  have hsum : (seg.map sentence_lines).sum ≤ 4 :=
    segGo_lines_le 4 sentences [] 0 (by simp) (by intro h; omega) seg hseg h2
  have htele := segJoin_lines_le seg hsound.1 hwf
  have hjw : Wordful (segJoin seg) := segJoin_wordful seg hsound.1 hwf
  have hfe : fill_line_count 35 (segJoin seg) = (wrapFrom 35 true (segJoin seg)).length :=
    sentence_lines_eq (segJoin seg) hjw
  omega

/-- Witness for C2 at a concrete two-sentence input: both sentences land in
one segment and its caption wraps within the budget. -/
theorem segmenter_max_lines_witness :
    fill_line_count 35
      (segJoin [[Chunk.word [false, false, false]], [Chunk.word [false, false]]]) ≤ 4 :=
  segmenter_max_lines
    [[Chunk.word [false, false, false]], [Chunk.word [false, false]]] (by decide)
    [[Chunk.word [false, false, false]], [Chunk.word [false, false]]] (by decide)
    (by decide)

/-! ## C4 — fail-fast validation of the ffmpeg compositor's inputs -/

/-- C4: whenever at least one of the three required input files (background
video, voiceover, background music) does not exist, `create_video` fails with
a "not found" error naming a missing file, and does so before the render tool
is invoked (the `Except.ok` payload is the command handed to the renderer, so
an `Except.error` result means the renderer never ran); the validation of all
three inputs happens up front, before any other work of `create_video`. -/
theorem create_video_missing_input_fails_fast
    (fsExists : String → Bool) (voice_info : Option ℚ)
    (env assetsDir dataDir : String)
    (background_video voiceover background_music output_file : String)
    (duration : Option ℚ) (bg_music_volume : ℚ) (quality story_title : String)
    (h : fsExists background_video = false ∨ fsExists voiceover = false ∨
         fsExists background_music = false) :
    ∃ nm fp, fsExists fp = false ∧
      create_video fsExists voice_info env assetsDir dataDir background_video
        voiceover background_music output_file duration bg_music_volume quality
        story_title = Except.error (nm ++ " file not found: " ++ fp) := by
  by_cases hb : fsExists background_video = false
  · exact ⟨"Background Video", background_video, hb,
      by simp [create_video, validate_files, hb]⟩
  · have hb' : fsExists background_video = true := by
      cases hx : fsExists background_video
      · exact absurd hx hb
      · rfl
    by_cases hv : fsExists voiceover = false
    · exact ⟨"Voiceover", voiceover, hv,
        by simp [create_video, validate_files, hb', hv]⟩
    · have hv' : fsExists voiceover = true := by
        cases hx : fsExists voiceover
        · exact absurd hx hv
        · rfl
      have hm : fsExists background_music = false := by
        rcases h with h | h | h
        · exact absurd h hb
        · exact absurd h hv
        · exact h
      exact ⟨"Background Music", background_music, hm,
        by simp [create_video, validate_files, hb', hv', hm]⟩

/-- C4 witness: with no file existing, the call fails with the per-file
"not found" error (for the background video, the first file validated). -/
theorem create_video_missing_input_fails_fast_witness :
    ∃ nm fp, (fun _ : String => false) fp = false ∧
      create_video (fun _ => false) none "dev" "/app/assets" "/app/data"
        "bg.mp4" "voice.wav" "music.mp3" "out.mp4" none (3/20) "medium"
        "A Title" = Except.error (nm ++ " file not found: " ++ fp) :=
  create_video_missing_input_fails_fast (fun _ => false) none "dev"
    "/app/assets" "/app/data" "bg.mp4" "voice.wav" "music.mp3" "out.mp4"
    none (3/20) "medium" "A Title" (Or.inl rfl)

/-! ## C10 — the caller-supplied duration parameter is dead -/

/-- C10: `create_video` ignores its caller-supplied `duration` parameter —
for any two values passed as `duration` the result (in particular the
constructed render command) is identical — and the duration actually used
for the `-t` flag is `int(voiceover duration) + 5` when probing the
voiceover succeeded and the fallback `305` otherwise. -/
theorem create_video_ignores_duration_param
    (fsExists : String → Bool) (voice_info : Option ℚ)
    (env assetsDir dataDir : String)
    (background_video voiceover background_music output_file : String)
    (d1 d2 : Option ℚ) (bg_music_volume : ℚ) (quality story_title : String) :
    create_video fsExists voice_info env assetsDir dataDir background_video
        voiceover background_music output_file d1 bg_music_volume quality
        story_title =
      create_video fsExists voice_info env assetsDir dataDir background_video
        voiceover background_music output_file d2 bg_music_volume quality
        story_title ∧
    (∀ v, duration_used (some v) = pyInt v + 5) ∧
    duration_used none = 305 ∧
    (∀ cmd, create_video fsExists voice_info env assetsDir dataDir
        background_video voiceover background_music output_file d1
        bg_music_volume quality story_title = Except.ok cmd →
      cmd = ffmpeg_cmd_before_t env assetsDir dataDir background_video
          voiceover background_music story_title bg_music_volume quality ++
        ["-t", toString (duration_used voice_info)] ++
        ffmpeg_cmd_after_t output_file) := by
  refine ⟨rfl, fun _ => rfl, rfl, ?_⟩
  intro cmd hcmd
  unfold create_video at hcmd
  cases hval : validate_files fsExists background_video voiceover background_music with
  | error e => rw [hval] at hcmd; exact absurd hcmd (by simp)
  | ok u => rw [hval] at hcmd; cases hcmd; rfl

/-- C10 witness: at a concrete input, the command is the same for
`duration = some 100` and `duration = none`, and the `-t` flag of the
produced command is `int(7/2) + 5 = 8`. -/
theorem create_video_ignores_duration_param_witness :
    create_video (fun _ => true) (some (7/2)) "dev" "/a" "/d" "b.mp4" "v.wav"
        "m.mp3" "o.mp4" (some 100) (3/20) "fast" "T" =
      create_video (fun _ => true) (some (7/2)) "dev" "/a" "/d" "b.mp4" "v.wav"
        "m.mp3" "o.mp4" none (3/20) "fast" "T" ∧
    duration_used (some (7/2)) = 8 ∧
    ffmpeg_cmd "dev" "/a" "/d" "b.mp4" "v.wav" "m.mp3" "o.mp4" "T" (3/20)
        "fast" (duration_used (some (7/2))) =
      ffmpeg_cmd_before_t "dev" "/a" "/d" "b.mp4" "v.wav" "m.mp3" "T" (3/20)
        "fast" ++ ["-t", toString (duration_used (some (7/2)))] ++
        ffmpeg_cmd_after_t "o.mp4" := by
  have h := create_video_ignores_duration_param (fun _ => true) (some (7/2))
    "dev" "/a" "/d" "b.mp4" "v.wav" "m.mp3" "o.mp4" (some 100) none (3/20)
    "fast" "T"
  refine ⟨h.1, ?_, h.2.2.2 _ rfl⟩
  have h2 := h.2.1 (7/2)
  rw [h2]
  norm_num [pyInt]
  rw [Rat.floor_def', ← Rat.floor_def]
  norm_num

/-! ## C5 — fallback behaviour of the story fetch -/

/-- Helper: the fallback story is always an element of the fixed list. -/
theorem get_fallback_story_mem (idx : Nat) :
    get_fallback_story idx ∈ FALLBACK_STORIES := by
  unfold get_fallback_story
  have hlen : FALLBACK_STORIES.length = 23 := by rfl
  have h : idx % FALLBACK_STORIES.length < FALLBACK_STORIES.length := by
    rw [hlen]; exact Nat.mod_lt _ (by norm_num)
  rw [List.getD_eq_getElem?_getD, List.getElem?_eq_getElem h]
  exact List.getElem_mem h

/-- C5 counterexample: the response text `"{}"` is an empty (story-less)
response that `json.loads` parses successfully as the empty JSON object, so
no exception is raised and `get_story_from_gemini` returns the empty object
itself — an empty result that is not drawn from the fallback list —
contradicting the claim that every malformed/empty response yields a story
from the fixed fallback list and that an empty result is never returned. -/
theorem get_story_from_gemini_counterexample :
    get_story_from_gemini true (some (PyJson.obj [])) 0 = PyJson.obj [] ∧
    PyJson.obj [] ∉ FALLBACK_STORIES := by
  refine ⟨rfl, ?_⟩
  intro hmem
  simp only [FALLBACK_STORIES, List.mem_cons, List.not_mem_nil, or_false] at hmem
  rcases hmem with h | h | h | h | h | h | h | h | h | h | h | h | h | h | h |
    h | h | h | h | h | h | h | h <;> exact absurd (congrArg (fun j =>
      match j with | PyJson.obj l => l.length | _ => 0) h) (by simp)

/-- C5 (amended): whenever the API call raises — network error, SDK error,
or a response whose text is empty or not valid JSON, so that `json.loads`
raises — and likewise when no API key is configured, the story fetch returns
the story at the uniformly-random index of the fixed local fallback list
(in particular an element of that list), and raises nothing.  (A response
that parses as JSON is returned as-is, without shape validation — see the
counterexample.) -/
theorem get_story_from_gemini_fallback (hasKey : Bool) (apiParse : Option PyJson)
    (idx : Nat) (h : hasKey = false ∨ apiParse = none) :
    get_story_from_gemini hasKey apiParse idx = get_fallback_story idx ∧
    get_story_from_gemini hasKey apiParse idx ∈ FALLBACK_STORIES := by
  have heq : get_story_from_gemini hasKey apiParse idx = get_fallback_story idx := by
    rcases h with h | h
    · rw [h]; rfl
    · rw [h]; cases hasKey <;> rfl
  exact ⟨heq, heq ▸ get_fallback_story_mem idx⟩

/-- C5 witness: a simulated network failure (`apiParse = none`) at draw 5
returns the fallback story with index `5 % 23 = 5` of the fixed list. -/
theorem get_story_from_gemini_fallback_witness :
    get_story_from_gemini true none 5 = get_fallback_story 5 ∧
    get_story_from_gemini true none 5 ∈ FALLBACK_STORIES :=
  get_story_from_gemini_fallback true none 5 (Or.inr rfl)

/-! ## C6 — the asset selectors -/

/-- Helper: a `getD` at an in-range index is a member. -/
theorem List.getD_mem_of_pos {α : Type _} (l : List α) (k : Nat) (d : α)
    (h : k < l.length) : l.getD k d ∈ l := by
  rw [List.getD_eq_getElem?_getD, List.getElem?_eq_getElem h]
  exact List.getElem_mem h

/-- C6: each asset selector returns only paths `folder ++ "/" ++ f` for a
file `f` of the directory listing whose lowercased name ends with one of the
allowed extensions for its asset kind (video: mp4/avi/mov/mkv; audio:
mp3/wav/aac) — the file chosen being the one at the random draw's index
among the matching files, so each matching file is returned for some draw —
and fails with the explicit "no assets" error exactly when the listing has
no matching file. -/
theorem asset_selectors_spec (folder : String) (listing : List String) (pick : Nat) :
    (listing.filter (fun f => endswithAny (pyLower f) videoExts) = [] ↔
      get_random_background_video folder listing pick = Except.error
        "No background videos found! Please add videos to the background_videos folder.") ∧
    (∀ p, get_random_background_video folder listing pick = Except.ok p →
      ∃ f ∈ listing, endswithAny (pyLower f) videoExts = true ∧
        p = folder ++ "/" ++ f) ∧
    (listing.filter (fun f => endswithAny (pyLower f) audioExts) = [] ↔
      get_random_audio_track folder listing pick = Except.error
        "No audio tracks found! Please add audio files to the audio_tracks folder.") ∧
    (∀ p, get_random_audio_track folder listing pick = Except.ok p →
      ∃ f ∈ listing, endswithAny (pyLower f) audioExts = true ∧
        p = folder ++ "/" ++ f) := by
  constructor
  · unfold get_random_background_video
    constructor
    · intro h; simp [h]
    · intro h
      by_cases hv : listing.filter (fun f => endswithAny (pyLower f) videoExts) = []
      · exact hv
      · rw [if_neg (by simpa [List.isEmpty_iff] using hv)] at h
        exact absurd h (by simp)
  constructor
  · intro p hp
    unfold get_random_background_video at hp
    by_cases hv : listing.filter (fun f => endswithAny (pyLower f) videoExts) = []
    · rw [if_pos (by simpa [List.isEmpty_iff] using hv)] at hp
      exact absurd hp (by simp)
    · rw [if_neg (by simpa [List.isEmpty_iff] using hv)] at hp
      set vids := listing.filter (fun f => endswithAny (pyLower f) videoExts) with hvids
      have hlen : 0 < vids.length := List.length_pos.mpr hv
      have hmem : vids.getD (pick % vids.length) "" ∈ vids :=
        List.getD_mem_of_pos vids _ "" (Nat.mod_lt _ hlen)
      have hmem' := List.mem_filter.mp (hvids ▸ hmem)
      exact ⟨vids.getD (pick % vids.length) "", hmem'.1, hmem'.2, by
        cases hp; rfl⟩
  constructor
  · unfold get_random_audio_track
    constructor
    · intro h; simp [h]
    · intro h
      by_cases hv : listing.filter (fun f => endswithAny (pyLower f) audioExts) = []
      · exact hv
      · rw [if_neg (by simpa [List.isEmpty_iff] using hv)] at h
        exact absurd h (by simp)
  · intro p hp
    unfold get_random_audio_track at hp
    by_cases hv : listing.filter (fun f => endswithAny (pyLower f) audioExts) = []
    · rw [if_pos (by simpa [List.isEmpty_iff] using hv)] at hp
      exact absurd hp (by simp)
    · rw [if_neg (by simpa [List.isEmpty_iff] using hv)] at hp
      set tracks := listing.filter (fun f => endswithAny (pyLower f) audioExts) with htracks
      have hlen : 0 < tracks.length := List.length_pos.mpr hv
      have hmem : tracks.getD (pick % tracks.length) "" ∈ tracks :=
        List.getD_mem_of_pos tracks _ "" (Nat.mod_lt _ hlen)
      have hmem' := List.mem_filter.mp (htracks ▸ hmem)
      exact ⟨tracks.getD (pick % tracks.length) "", hmem'.1, hmem'.2, by
        cases hp; rfl⟩

/-- C6 witness: on the listing `["Clip.MP4", "notes.txt"]` the video
selector returns the matching file (case-insensitively) and on
`["notes.txt"]` the audio selector fails with the "no assets" error. -/
theorem asset_selectors_spec_witness :
    (∃ f ∈ ["Clip.MP4", "notes.txt"],
      endswithAny (pyLower f) videoExts = true ∧
      "assets/background_videos/Clip.MP4" = "assets/background_videos" ++ "/" ++ f) ∧
    get_random_audio_track "assets/audio_tracks" ["notes.txt"] 7 = Except.error
      "No audio tracks found! Please add audio files to the audio_tracks folder." := by
  constructor
  · exact (asset_selectors_spec "assets/background_videos" ["Clip.MP4", "notes.txt"] 0).2.1
      "assets/background_videos/Clip.MP4" (by rfl)
  · exact ((asset_selectors_spec "assets/audio_tracks" ["notes.txt"] 7).2.2.1).mp (by decide)

/-! ## C7 — no retry of failed renders -/

/-- C7 counterexample: with both asset folders populated and a render that
fails (the render tool reports failure / raises), the orchestration invokes
the render exactly once — not the 3 attempts the claim asserts — performs no
backoff, and reports the cycle as failed. -/
theorem render_retry_counterexample :
    (generate_and_upload_short ["bg.mp4"] ["track.mp3"] [] none true).2.2 = 1 ∧
    (generate_and_upload_short ["bg.mp4"] ["track.mp3"] [] none true).1 = false ∧
    ¬ (generate_and_upload_short ["bg.mp4"] ["track.mp3"] [] none true).2.2 = 3 := by
  decide

/-- C7 (amended): on a render failure the orchestration makes no retry: the
render tool is invoked at most once per cycle (exactly once when both asset
checks pass, zero times when they fail), there is no backoff sleep, and the
failure is surfaced upward as the cycle's `False` result. -/
theorem render_failure_single_attempt (bgListing audListing disk : List String)
    (uploadOk : Bool) :
    (generate_and_upload_short bgListing audListing disk none uploadOk).1 = false ∧
    (generate_and_upload_short bgListing audListing disk none uploadOk).2.2 ≤ 1 ∧
    (generate_and_upload_short bgListing audListing disk none uploadOk).2.1 = disk := by
  unfold generate_and_upload_short generate_short create_video_short upload_to_youtube
  by_cases h1 : (bgListing.filter (fun f => endswithAny (pyLower f) videoExts)).isEmpty
  · simp [h1]
  · by_cases h2 : (audListing.filter (fun f => endswithAny (pyLower f) audioExts)).isEmpty
    · simp [h1, h2]
    · simp [h1, h2]

/-! ## C8 — rendered file kept on upload failure -/

/-- C8: in every cycle where the video was rendered successfully (the
generation stage produced a path `p`, which `write_videofile` created on
disk) but the upload stage reports failure, the cycle reports failure and
the rendered file `p` is still on disk afterwards — `os.remove` runs only
under `if success:` after a successful upload. -/
theorem rendered_file_survives_failed_upload (bgListing audListing disk : List String)
    (renderOutcome : Option String) (p : String)
    (hrender : (generate_short bgListing audListing disk renderOutcome).2.1 = some p) :
    (generate_and_upload_short bgListing audListing disk renderOutcome false).1 = false ∧
    p ∈ (generate_and_upload_short bgListing audListing disk renderOutcome false).2.1 := by
  have hdisk : p ∈ (generate_short bgListing audListing disk renderOutcome).1 := by
    unfold generate_short create_video_short at hrender ⊢
    by_cases h1 : (bgListing.filter (fun f => endswithAny (pyLower f) videoExts)).isEmpty
    · rw [if_pos h1] at hrender; exact absurd hrender (by simp)
    · rw [if_neg h1] at hrender ⊢
      by_cases h2 : (audListing.filter (fun f => endswithAny (pyLower f) audioExts)).isEmpty
      · rw [if_pos h2] at hrender; exact absurd hrender (by simp)
      · rw [if_neg h2] at hrender ⊢
        cases renderOutcome with
        | none => exact absurd hrender (by simp)
        | some q =>
          have : q = p := by cases hrender; rfl
          subst this
          exact List.mem_cons_self q disk
  simp only [generate_and_upload_short, upload_to_youtube, hrender]
  simp [hdisk]

/-- C8 witness: a successfully rendered `short.mp4` with a failed upload
leaves `short.mp4` on disk and the cycle reports failure. -/
theorem rendered_file_survives_failed_upload_witness :
    (generate_and_upload_short ["bg.mp4"] ["track.mp3"] [] (some "short.mp4") false).1 = false ∧
    "short.mp4" ∈ (generate_and_upload_short ["bg.mp4"] ["track.mp3"] []
      (some "short.mp4") false).2.1 :=
  rendered_file_survives_failed_upload ["bg.mp4"] ["track.mp3"] []
    (some "short.mp4") "short.mp4" (by decide)

end YTBot
